import Mathlib

/-!
Verification of the separating-axis collision detector in
`src/collision_detect.cpp` against its natural-language specification.

The C++ code is shallowly embedded over `Int` (the mathematical integers):
C++ `int` arithmetic is modelled by `Int`, and the claims that quantify over
all inputs carry an explicit coordinate bound (`BoundedRoi` / `BoundedRect`,
magnitude at most 16384) under which every intermediate dot product of the
source stays strictly inside the 32-bit range, so the idealized arithmetic
agrees with the machine arithmetic and the `INT_MAX` / `INT_MIN` seeds of the
source's min/max folds behave as neutral elements.
-/

namespace CollisionDetect

/-- 2D integer vector, embedding `struct Vec` of the source. -/
structure Vec where
  x : Int
  y : Int
  deriving DecidableEq, Repr

/-- `Vec::Normal`: the perpendicular `(y, -x)` of a vector. -/
def Vec.Normal (v : Vec) : Vec := ⟨v.y, -v.x⟩

/-- `Vec::operator*`: dot product `x*rhs.x + y*rhs.y`. -/
def Vec.dot (a b : Vec) : Int := a.x * b.x + a.y * b.y

/-- Negation of a vector (used only in the analysis, not by the source). -/
def Vec.neg (v : Vec) : Vec := ⟨-v.x, -v.y⟩

/-- 2D integer point, embedding `struct Point` of the source. -/
structure Point where
  x : Int
  y : Int
  deriving DecidableEq, Repr

/-- `Point::operator-`: point difference yielding the vector `p - rhs`. -/
def Point.sub (p rhs : Point) : Vec := ⟨p.x - rhs.x, p.y - rhs.y⟩

/-- `Point::toVec`: reinterpret a point as the vector from the origin. -/
def Point.toVec (p : Point) : Vec := ⟨p.x, p.y⟩

/-- The default-constructed `Point()`, i.e. `(0, 0)`. -/
def Point.zero : Point := ⟨0, 0⟩

/-- Axis-aligned rectangle `{left, top, width, height}`, embedding `struct Rect`. -/
structure Rect where
  left : Int
  top : Int
  width : Int
  height : Int
  deriving DecidableEq, Repr

/-- `rect_to_points`: the rectangle's four corners in source order
(top-left, top-right, bottom-right, bottom-left). -/
def rect_to_points (rect : Rect) : List Point :=
  [⟨rect.left, rect.top⟩,
   ⟨rect.left + rect.width, rect.top⟩,
   ⟨rect.left + rect.width, rect.top + rect.height⟩,
   ⟨rect.left, rect.top + rect.height⟩]

/-- The `INT_MAX` seed used by the source's min folds. -/
def INT_MAX : Int := 2147483647

/-- The `INT_MIN` seed used by the source's max folds. -/
def INT_MIN : Int := -2147483648

/-- The ROI bounding box `(x1, y1, x2, y2)` computed by `collision_detect`:
coordinatewise min/max folds seeded with `INT_MAX` / `INT_MIN`. -/
def roiBBox (roi : List Point) : Int × Int × Int × Int :=
  (roi.foldl (fun m p => min m p.x) INT_MAX,
   roi.foldl (fun m p => min m p.y) INT_MAX,
   roi.foldl (fun m p => max m p.x) INT_MIN,
   roi.foldl (fun m p => max m p.y) INT_MIN)

/-- The early-return condition of the bounding-box prefilter:
`rect.left > x2 || rect.left + rect.width < x1 || rect.top > y2 ||
 rect.top + rect.height < y1`. -/
def prefilterReject (roi : List Point) (rect : Rect) : Bool :=
  let bb := roiBBox roi
  decide (rect.left > bb.2.2.1) || decide (rect.left + rect.width < bb.1) ||
  decide (rect.top > bb.2.2.2) || decide (rect.top + rect.height < bb.2.1)

/-- The axis (edge normal) examined at loop iteration `i` of the SAT loop:
for `i < roi.size()` the normal of ROI edge `i`; otherwise the normal of the
edge from `rec_points[idx]` to `rec_points[idx+1]` where
`idx = project_cnt - roi.size()` (which equals 2). -/
def axisAt (roi rec_points : List Point) (i : Nat) : Vec :=
  let p0 := if i < roi.length then roi.getD i Point.zero
            else rec_points.getD ((roi.length + 2) - roi.length) Point.zero
  let p1 := if i < roi.length then roi.getD ((i + 1) % roi.length) Point.zero
            else rec_points.getD (((roi.length + 2) - roi.length) + 1) Point.zero
  (p1.sub p0).Normal

/-- Projection minimum over a point list: the source's
`pj_min = min(pj_min, normal * p.toVec())` fold seeded with `INT_MAX`. -/
def pjMin (normal : Vec) (ps : List Point) : Int :=
  ps.foldl (fun m p => min m (normal.dot p.toVec)) INT_MAX

/-- Projection maximum over a point list: the source's
`pj_max = max(pj_max, normal * p.toVec())` fold seeded with `INT_MIN`. -/
def pjMax (normal : Vec) (ps : List Point) : Int :=
  ps.foldl (fun m p => max m (normal.dot p.toVec)) INT_MIN

/-- One iteration of the SAT loop: `true` iff the axis of iteration `i`
separates, i.e. `rec_pj_min > roi_pj_max || rec_pj_max < roi_pj_min`. -/
def separatesAt (roi rec_points : List Point) (i : Nat) : Bool :=
  let normal := axisAt roi rec_points i
  decide (pjMin normal rec_points > pjMax normal roi) ||
  decide (pjMax normal rec_points < pjMin normal roi)

/-- The SAT loop of `collision_detect`: iterations `0 .. roi.size() + 2`,
returning `false` as soon as one axis separates, else `true`. -/
def satLoop (roi rec_points : List Point) : Bool :=
  !((List.range (roi.length + 2)).any (fun i => separatesAt roi rec_points i))

/-- `collision_detect`: degenerate-input check, bounding-box prefilter,
then the separating-axis loop. -/
def collision_detect (roi : List Point) (rect : Rect) : Bool :=
  if roi.length < 3 then false
  else if prefilterReject roi rect then false
  else satLoop roi (rect_to_points rect)

/-- `collision_detect` together with the diagnostic lines it prints:
the source emits `"roi points must >= 3"` via `printf` exactly in the
degenerate branch and prints nothing otherwise. -/
def collision_detect_out (roi : List Point) (rect : Rect) : Bool × List String :=
  if roi.length < 3 then (false, ["roi points must >= 3"])
  else (collision_detect roi rect, [])

/-- `collision_detect` with the bounding-box prefilter early-return removed
(the SAT loop applied whenever the input is not degenerate). -/
def collision_detect_noPrefilter (roi : List Point) (rect : Rect) : Bool :=
  if roi.length < 3 then false
  else satLoop roi (rect_to_points rect)

/-- `collision_detect` with the final SAT-loop iteration dropped
(iterations `0 .. roi.size() + 1` instead of `0 .. roi.size() + 2`). -/
def collision_detect_dropLast (roi : List Point) (rect : Rect) : Bool :=
  if roi.length < 3 then false
  else if prefilterReject roi rect then false
  else !((List.range (roi.length + 1)).any
          (fun i => separatesAt roi (rect_to_points rect) i))

/-! ### The concrete shapes of `main` -/

/-- The demonstration ROI triangle `[(200,0), (200,200), (0,200)]`. -/
def roiDemo : List Point := [⟨200, 0⟩, ⟨200, 200⟩, ⟨0, 200⟩]

/-- `rect1 = {0, 0, 100, 100}`. -/
def rect1 : Rect := ⟨0, 0, 100, 100⟩

/-- `rect2 = {50, 50, 40, 40}`. -/
def rect2 : Rect := ⟨50, 50, 40, 40⟩

/-- `rect3 = {201, 101, 50, 50}`. -/
def rect3 : Rect := ⟨201, 101, 50, 50⟩

/-- `rect4 = {180, 100, 50, 50}`. -/
def rect4 : Rect := ⟨180, 100, 50, 50⟩

/-- A convex counter-clockwise triangle with no vertical edge, used to
exhibit the prefilter/SAT-loop divergence. -/
def roiSliver : List Point := [⟨0, 0⟩, ⟨10, 5⟩, ⟨5, 10⟩]

/-- A rectangle strictly to the right of `roiSliver`'s bounding box whose
`y`-interval overlaps the triangle's. -/
def rectSliver : Rect := ⟨11, 0, 2, 10⟩

/-! ### Specification-side definitions

These definitions follow the wording of the specification: true minima and
maxima of the dot-product projections of all vertices, and the candidate
axis list `n` ROI edge normals plus the normals of the rectangle's first
two edges. -/

/-- Minimum of a nonempty integer list (0 for the empty list). -/
def listMinD : List Int → Int
  | [] => 0
  | h :: t => t.foldl min h

/-- Maximum of a nonempty integer list (0 for the empty list). -/
def listMaxD : List Int → Int
  | [] => 0
  | h :: t => t.foldl max h

/-- The dot-product projections of all vertices of a shape onto an axis. -/
def projList (normal : Vec) (ps : List Point) : List Int :=
  ps.map (fun p => normal.dot p.toVec)

/-- The normal of ROI edge `i` (from vertex `i` to vertex `(i+1) mod n`). -/
def roiAxis (roi : List Point) (i : Nat) : Vec :=
  ((roi.getD ((i + 1) % roi.length) Point.zero).sub (roi.getD i Point.zero)).Normal

/-- The normal of the rectangle's first edge (vertex 0 to vertex 1). -/
def rectAxis01 (rect : Rect) : Vec :=
  (((rect_to_points rect).getD 1 Point.zero).sub
    ((rect_to_points rect).getD 0 Point.zero)).Normal

/-- The normal of the rectangle's second edge (vertex 1 to vertex 2). -/
def rectAxis12 (rect : Rect) : Vec :=
  (((rect_to_points rect).getD 2 Point.zero).sub
    ((rect_to_points rect).getD 1 Point.zero)).Normal

/-- The `|A| + 2` candidate axes named by the specification: one normal per
ROI edge, then the normals of the rectangle's first two edges. -/
def specAxes (roi : List Point) (rect : Rect) : List Vec :=
  (List.range roi.length).map (roiAxis roi) ++ [rectAxis01 rect, rectAxis12 rect]

/-- Strict separation of the true projection intervals along one axis:
`rectangle_max < roi_min` or `rectangle_min > roi_max`. -/
def sepOn (normal : Vec) (roi rp : List Point) : Bool :=
  decide (listMaxD (projList normal rp) < listMinD (projList normal roi)) ||
  decide (listMinD (projList normal rp) > listMaxD (projList normal roi))

/-- Existence of a strictly separating axis among the `|A| + 2` candidates. -/
def specSeparates (roi : List Point) (rect : Rect) : Bool :=
  (specAxes roi rect).any (fun normal => sepOn normal roi (rect_to_points rect))

/-- The coordinate bound under which the idealized `Int` arithmetic of the
embedding coincides with the 32-bit arithmetic of the source: every dot
product of an edge normal with a vertex is then at most `4 * 16384^2 = 2^30`
in magnitude, strictly inside the 32-bit range. -/
def coordBound : Int := 16384

/-- All ROI vertices have coordinates of magnitude at most `coordBound`. -/
def BoundedRoi (roi : List Point) : Prop :=
  ∀ p ∈ roi, |p.x| ≤ coordBound ∧ |p.y| ≤ coordBound

/-- All four rectangle corners have coordinates of magnitude at most
`coordBound`. -/
def BoundedRect (rect : Rect) : Prop :=
  ∀ p ∈ rect_to_points rect, |p.x| ≤ coordBound ∧ |p.y| ≤ coordBound

/-- Cross product of two vectors (used to state consistent winding). -/
def cross (a b : Vec) : Int := a.x * b.y - a.y * b.x

/-- ROI vertex `i`, indexed cyclically. -/
def vtx (roi : List Point) (i : Nat) : Point :=
  roi.getD (i % roi.length) Point.zero

/-- ROI edge `i` as a vector, indexed cyclically. -/
def edge (roi : List Point) (i : Nat) : Vec :=
  (vtx roi (i + 1)).sub (vtx roi i)

/-- ROI edge normal `i`, indexed cyclically. -/
def nrm (roi : List Point) (i : Nat) : Vec := (edge roi i).Normal

/-- Convexity with counter-clockwise winding: every vertex lies on the
non-positive side of every edge normal (each edge's supporting line keeps
all vertices on one side), and consecutive edges turn strictly
counter-clockwise. -/
def ConvexCCW (roi : List Point) : Prop :=
  (∀ i < roi.length, ∀ j < roi.length,
    (nrm roi i).dot (vtx roi j).toVec ≤ (nrm roi i).dot (vtx roi i).toVec) ∧
  (∀ i < roi.length, 0 < cross (edge roi i) (edge roi (i + 1)))

/-- Convexity with clockwise winding: the mirror image of `ConvexCCW`. -/
def ConvexCW (roi : List Point) : Prop :=
  (∀ i < roi.length, ∀ j < roi.length,
    (nrm roi i).dot (vtx roi i).toVec ≤ (nrm roi i).dot (vtx roi j).toVec) ∧
  (∀ i < roi.length, cross (edge roi i) (edge roi (i + 1)) < 0)

/-- A convex polygon with consistent winding: all turns counter-clockwise
or all turns clockwise. -/
def ConvexWound (roi : List Point) : Prop := ConvexCCW roi ∨ ConvexCW roi

/-! ### Bounds-checked variant of `collision_detect`

Every `operator[]` access of the source is replaced by a checked lookup
returning `Option`; the whole computation returns `none` iff some access
is out of bounds. -/

/-- Sequential evaluation of an optional computation over a list. -/
def optionMapM (f : Nat → Option Bool) : List Nat → Option (List Bool)
  | [] => some []
  | i :: is => (f i).bind fun b => (optionMapM f is).map fun bs => b :: bs

/-- One SAT-loop iteration with every container access bounds-checked:
`roi[i]` and `roi[(i+1) % roi.size()]` in the ROI branch, and
`rec_points[idx]`, `rec_points[idx+1]` with `idx = project_cnt - roi.size()`
in the rectangle branch. -/
def separatesAtChecked (roi rp : List Point) (i : Nat) : Option Bool :=
  (if i < roi.length then roi.get? i
   else rp.get? ((roi.length + 2) - roi.length)).bind fun p0 =>
  (if i < roi.length then roi.get? ((i + 1) % roi.length)
   else rp.get? (((roi.length + 2) - roi.length) + 1)).bind fun p1 =>
  some (decide (pjMin ((p1.sub p0).Normal) rp > pjMax ((p1.sub p0).Normal) roi) ||
        decide (pjMax ((p1.sub p0).Normal) rp < pjMin ((p1.sub p0).Normal) roi))

/-- `collision_detect` with bounds-checked container accesses. -/
def collision_detect_checked (roi : List Point) (rect : Rect) : Option Bool :=
  if roi.length < 3 then some false
  else if prefilterReject roi rect then some false
  else
    (optionMapM (separatesAtChecked roi (rect_to_points rect))
        (List.range (roi.length + 2))).map fun rs => !rs.any id

/-! ### Basic structure of the SAT loop -/

/-- For every iteration `i` past the ROI edges, the axis examined is the
normal of the rectangle edge from `rec_points[2]` to `rec_points[3]`,
because `idx = project_cnt - roi.size() = 2` does not depend on `i`. -/
theorem axisAt_of_length_le (roi rp : List Point) (i : Nat)
    (h : roi.length ≤ i) :
    axisAt roi rp i = ((rp.getD 3 Point.zero).sub (rp.getD 2 Point.zero)).Normal := by
  have h1 : ¬ i < roi.length := not_lt.mpr h
  simp only [axisAt, h1, if_false, Nat.add_sub_cancel_left]

theorem range_any_succ (f : Nat → Bool) (n : Nat) :
    (List.range (n + 1)).any f = ((List.range n).any f || f n) := by
  rw [List.range_succ, List.any_append]
  simp

/-! ### Min/max fold lemmas

The source seeds its folds with `INT_MAX` / `INT_MIN`; these lemmas
characterize the folds as true list minima/maxima once every element is
within the seed. -/

theorem foldl_min_le_init (l : List Int) : ∀ s : Int, l.foldl min s ≤ s := by
  induction l with
  | nil => intro s; exact le_refl s
  | cons h t ih =>
    intro s
    exact le_trans (ih (min s h)) (min_le_left s h)

theorem foldl_min_le_mem (l : List Int) :
    ∀ s x : Int, x ∈ l → l.foldl min s ≤ x := by
  induction l with
  | nil => intro s x hx; cases hx
  | cons h t ih =>
    intro s x hx
    rcases List.mem_cons.mp hx with rfl | hx
    · exact le_trans (foldl_min_le_init t (min s x)) (min_le_right s x)
    · exact ih (min s h) x hx

theorem foldl_min_choice (l : List Int) :
    ∀ s : Int, l.foldl min s = s ∨ l.foldl min s ∈ l := by
  induction l with
  | nil => intro s; exact Or.inl rfl
  | cons h t ih =>
    intro s
    rcases ih (min s h) with he | he
    · rcases le_total s h with hsh | hsh
      · exact Or.inl (by rw [List.foldl_cons, he, min_eq_left hsh])
      · refine Or.inr ?_
        rw [List.foldl_cons, he, min_eq_right hsh]
        exact List.mem_cons_self h t
    · exact Or.inr (List.mem_cons_of_mem h he)

theorem foldl_max_le_init (l : List Int) : ∀ s : Int, s ≤ l.foldl max s := by
  induction l with
  | nil => intro s; exact le_refl s
  | cons h t ih =>
    intro s
    exact le_trans (le_max_left s h) (ih (max s h))

theorem foldl_max_le_mem (l : List Int) :
    ∀ s x : Int, x ∈ l → x ≤ l.foldl max s := by
  induction l with
  | nil => intro s x hx; cases hx
  | cons h t ih =>
    intro s x hx
    rcases List.mem_cons.mp hx with rfl | hx
    · exact le_trans (le_max_right s x) (foldl_max_le_init t (max s x))
    · exact ih (max s h) x hx

theorem foldl_max_choice (l : List Int) :
    ∀ s : Int, l.foldl max s = s ∨ l.foldl max s ∈ l := by
  induction l with
  | nil => intro s; exact Or.inl rfl
  | cons h t ih =>
    intro s
    rcases ih (max s h) with he | he
    · rcases le_total s h with hsh | hsh
      · refine Or.inr ?_
        rw [List.foldl_cons, he, max_eq_right hsh]
        exact List.mem_cons_self h t
      · exact Or.inl (by rw [List.foldl_cons, he, max_eq_left hsh])
    · exact Or.inr (List.mem_cons_of_mem h he)

theorem listMinD_le {l : List Int} {x : Int} (hx : x ∈ l) : listMinD l ≤ x := by
  cases l with
  | nil => cases hx
  | cons h t =>
    rcases List.mem_cons.mp hx with rfl | hx
    · exact foldl_min_le_init t x
    · exact foldl_min_le_mem t h x hx

theorem listMinD_mem {l : List Int} (hne : l ≠ []) : listMinD l ∈ l := by
  cases l with
  | nil => exact absurd rfl hne
  | cons h t =>
    rcases foldl_min_choice t h with he | he
    · show t.foldl min h ∈ h :: t
      rw [he]
      exact List.mem_cons_self h t
    · exact List.mem_cons_of_mem h he

theorem le_listMinD {l : List Int} {c : Int} (hne : l ≠ [])
    (hc : ∀ x ∈ l, c ≤ x) : c ≤ listMinD l :=
  hc _ (listMinD_mem hne)

theorem lt_listMinD {l : List Int} {c : Int} (hne : l ≠ [])
    (hc : ∀ x ∈ l, c < x) : c < listMinD l :=
  hc _ (listMinD_mem hne)

theorem listMaxD_le {l : List Int} {x : Int} (hx : x ∈ l) : x ≤ listMaxD l := by
  cases l with
  | nil => cases hx
  | cons h t =>
    rcases List.mem_cons.mp hx with rfl | hx
    · exact foldl_max_le_init t x
    · exact foldl_max_le_mem t h x hx

theorem listMaxD_mem {l : List Int} (hne : l ≠ []) : listMaxD l ∈ l := by
  cases l with
  | nil => exact absurd rfl hne
  | cons h t =>
    rcases foldl_max_choice t h with he | he
    · show t.foldl max h ∈ h :: t
      rw [he]
      exact List.mem_cons_self h t
    · exact List.mem_cons_of_mem h he

theorem listMaxD_le_of {l : List Int} {c : Int} (hne : l ≠ [])
    (hc : ∀ x ∈ l, x ≤ c) : listMaxD l ≤ c :=
  hc _ (listMaxD_mem hne)

theorem listMaxD_lt_of {l : List Int} {c : Int} (hne : l ≠ [])
    (hc : ∀ x ∈ l, x < c) : listMaxD l < c :=
  hc _ (listMaxD_mem hne)

theorem foldl_min_eq_listMinD (l : List Int) (s : Int) (hne : l ≠ [])
    (hb : ∀ x ∈ l, x ≤ s) : l.foldl min s = listMinD l := by
  refine le_antisymm ?_ ?_
  · exact foldl_min_le_mem l s _ (listMinD_mem hne)
  · rcases foldl_min_choice l s with he | he
    · rw [he]; exact hb _ (listMinD_mem hne)
    · exact listMinD_le he

theorem foldl_max_eq_listMaxD (l : List Int) (s : Int) (hne : l ≠ [])
    (hb : ∀ x ∈ l, s ≤ x) : l.foldl max s = listMaxD l := by
  refine le_antisymm ?_ ?_
  · rcases foldl_max_choice l s with he | he
    · rw [he]; exact hb _ (listMaxD_mem hne)
    · exact listMaxD_le he
  · exact foldl_max_le_mem l s _ (listMaxD_mem hne)

/-! ### Vector algebra -/

theorem normal_dot_self (v : Vec) : v.Normal.dot v = 0 := by
  unfold Vec.Normal Vec.dot
  ring

theorem normal_dot_normal (u v : Vec) : u.Normal.dot v.Normal = u.dot v := by
  unfold Vec.Normal Vec.dot
  ring

theorem dot_comm (a b : Vec) : a.dot b = b.dot a := by
  unfold Vec.dot
  ring

theorem neg_dot (m u : Vec) : m.neg.dot u = -(m.dot u) := by
  unfold Vec.neg Vec.dot
  ring

theorem dot_point_sub (m : Vec) (a b : Point) :
    m.dot (a.sub b) = m.dot a.toVec - m.dot b.toVec := by
  unfold Vec.dot Point.sub Point.toVec
  ring

/-- The separating-cone identity: a nonnegative combination of the two edge
normals at an extremal vertex is a positive multiple of the direction. -/
theorem combo_identity (a b d q : Vec) :
    (-(b.dot d)) * (a.Normal.dot q) + (a.dot d) * (b.Normal.dot q) =
      cross a b * (d.dot q) := by
  unfold Vec.Normal Vec.dot cross
  ring

/-- Decomposition of a dot product along the orthogonal basis `d`, `d.Normal`. -/
theorem dot_decompose (d m w : Vec) :
    (d.dot d) * (m.dot w) =
      (d.dot w) * (m.dot d) + (d.Normal.dot w) * (m.dot d.Normal) := by
  unfold Vec.Normal Vec.dot
  ring

/-! ### Cyclic vertex indexing -/

theorem vtx_mod (roi : List Point) (i : Nat) :
    vtx roi (i % roi.length) = vtx roi i := by
  unfold vtx
  rw [Nat.mod_mod_of_dvd i (dvd_refl roi.length)]

theorem vtx_add_len (roi : List Point) (i : Nat) :
    vtx roi (i + roi.length) = vtx roi i := by
  unfold vtx
  rw [Nat.add_mod_right]

theorem vtx_add_mod (roi : List Point) (i c : Nat) (hc : c < roi.length) :
    vtx roi (i % roi.length + c) = vtx roi (i + c) := by
  unfold vtx
  have h1 : c % roi.length = c := Nat.mod_eq_of_lt hc
  have hidx : (i % roi.length + c) % roi.length = (i + c) % roi.length := by
    conv_rhs => rw [Nat.add_mod, h1]
  rw [hidx]

theorem vtx_succ_mod (roi : List Point) (h3 : 3 ≤ roi.length) (i : Nat) :
    vtx roi (i % roi.length + 1) = vtx roi (i + 1) :=
  vtx_add_mod roi i 1 (by omega)

theorem edge_mod (roi : List Point) (h3 : 3 ≤ roi.length) (i : Nat) :
    edge roi (i % roi.length) = edge roi i := by
  unfold edge
  rw [vtx_mod, vtx_succ_mod roi h3]

theorem edge_add_len (roi : List Point) (i : Nat) :
    edge roi (i + roi.length) = edge roi i := by
  unfold edge
  have : i + roi.length + 1 = i + 1 + roi.length := by omega
  rw [this, vtx_add_len, vtx_add_len]

theorem nrm_mod (roi : List Point) (h3 : 3 ≤ roi.length) (i : Nat) :
    nrm roi (i % roi.length) = nrm roi i := by
  unfold nrm
  rw [edge_mod roi h3]

theorem nrm_add_len (roi : List Point) (i : Nat) :
    nrm roi (i + roi.length) = nrm roi i := by
  unfold nrm
  rw [edge_add_len]

theorem nrm_eq_roiAxis (roi : List Point) (i : Nat) (hi : i < roi.length) :
    nrm roi i = roiAxis roi i := by
  unfold nrm edge vtx roiAxis
  rw [Nat.mod_eq_of_lt hi]

/-! ### Membership bridges -/

theorem getD_mem {l : List Point} {i : Nat} (h : i < l.length) :
    l.getD i Point.zero ∈ l := by
  induction l generalizing i with
  | nil => exact absurd h (Nat.not_lt_zero i)
  | cons p t ih =>
    cases i with
    | zero => exact List.mem_cons_self p t
    | succ j => exact List.mem_cons_of_mem p (ih (Nat.lt_of_succ_lt_succ h))

theorem vtx_mem (roi : List Point) (hne : roi ≠ []) (i : Nat) :
    vtx roi i ∈ roi := by
  unfold vtx
  exact getD_mem (Nat.mod_lt i (List.length_pos.mpr hne))

theorem getD_eq_get (l : List Point) (i : Nat) (h : i < l.length) :
    l.getD i Point.zero = l.get ⟨i, h⟩ := by
  induction l generalizing i with
  | nil => exact absurd h (Nat.not_lt_zero i)
  | cons p t ih =>
    cases i with
    | zero => rfl
    | succ j => exact ih j (Nat.lt_of_succ_lt_succ h)

theorem mem_vtx (roi : List Point) {p : Point} (hp : p ∈ roi) :
    ∃ j < roi.length, vtx roi j = p := by
  rcases List.mem_iff_get.mp hp with ⟨⟨j, hj⟩, rfl⟩
  refine ⟨j, hj, ?_⟩
  unfold vtx
  rw [Nat.mod_eq_of_lt hj]
  exact getD_eq_get roi j hj

theorem mem_projList {m : Vec} {ps : List Point} {v : Int} :
    v ∈ projList m ps ↔ ∃ p ∈ ps, m.dot p.toVec = v := by
  unfold projList
  simp [List.mem_map]

theorem projList_ne_nil {m : Vec} {ps : List Point} (hne : ps ≠ []) :
    projList m ps ≠ [] := by
  unfold projList
  simpa using hne

/-! ### Sentinel bridges under the coordinate bound -/

theorem proj_abs_le {normal : Vec} {p : Point}
    (hn1 : |normal.x| ≤ 2 * coordBound) (hn2 : |normal.y| ≤ 2 * coordBound)
    (hp1 : |p.x| ≤ coordBound) (hp2 : |p.y| ≤ coordBound) :
    |normal.dot p.toVec| ≤ 1073741824 := by
  unfold coordBound at hn1 hn2 hp1 hp2
  rcases abs_le.mp hn1 with ⟨a1, a2⟩
  rcases abs_le.mp hn2 with ⟨b1, b2⟩
  rcases abs_le.mp hp1 with ⟨c1, c2⟩
  rcases abs_le.mp hp2 with ⟨d1, d2⟩
  unfold Vec.dot Point.toVec
  rw [abs_le]
  constructor <;> nlinarith

theorem sub_normal_bounded {p0 p1 : Point}
    (h0 : |p0.x| ≤ coordBound ∧ |p0.y| ≤ coordBound)
    (h1 : |p1.x| ≤ coordBound ∧ |p1.y| ≤ coordBound) :
    |((p1.sub p0).Normal).x| ≤ 2 * coordBound ∧
      |((p1.sub p0).Normal).y| ≤ 2 * coordBound := by
  unfold coordBound at h0 h1 ⊢
  rcases abs_le.mp h0.1 with ⟨a1, a2⟩
  rcases abs_le.mp h0.2 with ⟨b1, b2⟩
  rcases abs_le.mp h1.1 with ⟨c1, c2⟩
  rcases abs_le.mp h1.2 with ⟨d1, d2⟩
  unfold Point.sub Vec.Normal
  constructor <;> (rw [abs_le]; constructor <;> (simp only []; omega))

theorem pjMin_eq_listMinD (normal : Vec) (ps : List Point) (hne : ps ≠ [])
    (hb : ∀ p ∈ ps, |normal.dot p.toVec| ≤ 1073741824) :
    pjMin normal ps = listMinD (projList normal ps) := by
  unfold pjMin projList
  rw [← List.foldl_map (fun p : Point => normal.dot p.toVec) min ps INT_MAX]
  refine foldl_min_eq_listMinD _ _ (by simpa using hne) ?_
  intro x hx
  rcases List.mem_map.mp hx with ⟨p, hp, rfl⟩
  have := abs_le.mp (hb p hp)
  unfold INT_MAX
  omega

theorem pjMax_eq_listMaxD (normal : Vec) (ps : List Point) (hne : ps ≠ [])
    (hb : ∀ p ∈ ps, |normal.dot p.toVec| ≤ 1073741824) :
    pjMax normal ps = listMaxD (projList normal ps) := by
  unfold pjMax projList
  rw [← List.foldl_map (fun p : Point => normal.dot p.toVec) max ps INT_MIN]
  refine foldl_max_eq_listMaxD _ _ (by simpa using hne) ?_
  intro x hx
  rcases List.mem_map.mp hx with ⟨p, hp, rfl⟩
  have := abs_le.mp (hb p hp)
  unfold INT_MIN
  omega

/-! ### The ROI bounding box as true minima/maxima -/

theorem roiBBox_x1 (roi : List Point) (hne : roi ≠ []) (hb : BoundedRoi roi) :
    (roiBBox roi).1 = listMinD (roi.map Point.x) := by
  show roi.foldl (fun m p => min m p.x) INT_MAX = _
  rw [← List.foldl_map Point.x min roi INT_MAX]
  refine foldl_min_eq_listMinD _ _ (by simpa using hne) ?_
  intro x hx
  rcases List.mem_map.mp hx with ⟨p, hp, rfl⟩
  have := abs_le.mp (hb p hp).1
  unfold coordBound at this
  unfold INT_MAX
  omega

theorem roiBBox_y1 (roi : List Point) (hne : roi ≠ []) (hb : BoundedRoi roi) :
    (roiBBox roi).2.1 = listMinD (roi.map Point.y) := by
  show roi.foldl (fun m p => min m p.y) INT_MAX = _
  rw [← List.foldl_map Point.y min roi INT_MAX]
  refine foldl_min_eq_listMinD _ _ (by simpa using hne) ?_
  intro x hx
  rcases List.mem_map.mp hx with ⟨p, hp, rfl⟩
  have := abs_le.mp (hb p hp).2
  unfold coordBound at this
  unfold INT_MAX
  omega

theorem roiBBox_x2 (roi : List Point) (hne : roi ≠ []) (hb : BoundedRoi roi) :
    (roiBBox roi).2.2.1 = listMaxD (roi.map Point.x) := by
  show roi.foldl (fun m p => max m p.x) INT_MIN = _
  rw [← List.foldl_map Point.x max roi INT_MIN]
  refine foldl_max_eq_listMaxD _ _ (by simpa using hne) ?_
  intro x hx
  rcases List.mem_map.mp hx with ⟨p, hp, rfl⟩
  have := abs_le.mp (hb p hp).1
  unfold coordBound at this
  unfold INT_MIN
  omega

theorem roiBBox_y2 (roi : List Point) (hne : roi ≠ []) (hb : BoundedRoi roi) :
    (roiBBox roi).2.2.2 = listMaxD (roi.map Point.y) := by
  show roi.foldl (fun m p => max m p.y) INT_MIN = _
  rw [← List.foldl_map Point.y max roi INT_MIN]
  refine foldl_max_eq_listMaxD _ _ (by simpa using hne) ?_
  intro x hx
  rcases List.mem_map.mp hx with ⟨p, hp, rfl⟩
  have := abs_le.mp (hb p hp).2
  unfold coordBound at this
  unfold INT_MIN
  omega

/-! ### Convexity machinery for the separating-axis equivalence -/

/-- A consistently wound convex polygon yields a sign `σ` such that, after
scaling by `σ`, every vertex is on the low side of every edge normal and
every turn is strictly positive. -/
theorem convexWound_elim (roi : List Point) (hw : ConvexWound roi) :
    ∃ σ : Int, (σ = 1 ∨ σ = -1) ∧
      (∀ i < roi.length, ∀ j < roi.length,
        σ * ((nrm roi i).dot (vtx roi j).toVec) ≤
          σ * ((nrm roi i).dot (vtx roi i).toVec)) ∧
      (∀ i < roi.length, 0 < σ * cross (edge roi i) (edge roi (i + 1))) := by
  rcases hw with ⟨hhp, hcr⟩ | ⟨hhp, hcr⟩
  · refine ⟨1, Or.inl rfl, ?_, ?_⟩
    · intro i hi j hj
      simpa using hhp i hi j hj
    · intro i hi
      simpa using hcr i hi
  · refine ⟨-1, Or.inr rfl, ?_, ?_⟩
    · intro i hi j hj
      have := hhp i hi j hj
      linarith
    · intro i hi
      have := hcr i hi
      linarith

/-- Periodic extension of the scaled half-plane property. -/
theorem halfplane_ext (roi : List Point) (σ : Int) (h3 : 3 ≤ roi.length)
    (hhp : ∀ i < roi.length, ∀ j < roi.length,
      σ * ((nrm roi i).dot (vtx roi j).toVec) ≤
        σ * ((nrm roi i).dot (vtx roi i).toVec)) :
    ∀ i j : Nat, σ * ((nrm roi i).dot (vtx roi j).toVec) ≤
      σ * ((nrm roi i).dot (vtx roi i).toVec) := by
  intro i j
  have hn : 0 < roi.length := by omega
  have hi := Nat.mod_lt i hn
  have hj := Nat.mod_lt j hn
  have h := hhp (i % roi.length) hi (j % roi.length) hj
  rwa [nrm_mod roi h3, vtx_mod, vtx_mod] at h

/-- Periodic extension of the scaled strict-turn property. -/
theorem turns_ext (roi : List Point) (σ : Int) (h3 : 3 ≤ roi.length)
    (hcr : ∀ i < roi.length, 0 < σ * cross (edge roi i) (edge roi (i + 1))) :
    ∀ i : Nat, 0 < σ * cross (edge roi i) (edge roi (i + 1)) := by
  intro i
  have hn : 0 < roi.length := by omega
  have h := hcr (i % roi.length) (Nat.mod_lt i hn)
  have he1 : edge roi (i % roi.length) = edge roi i := edge_mod roi h3 i
  have he2 : edge roi (i % roi.length + 1) = edge roi (i + 1) := by
    unfold edge
    rw [show i % roi.length + 1 + 1 = i % roi.length + 2 from rfl,
      vtx_add_mod roi i 2 (by omega), vtx_add_mod roi i 1 (by omega)]
  rwa [he1, he2] at h

/-- Existence of an index attaining the maximum of `f` on `[0, n)`. -/
theorem exists_argmax (f : Nat → Int) :
    ∀ n : Nat, 0 < n → ∃ k, k < n ∧ ∀ j < n, f j ≤ f k := by
  intro n
  induction n with
  | zero => intro h; exact absurd h (by omega)
  | succ m ih =>
    intro _
    rcases Nat.eq_zero_or_pos m with rfl | hm
    · refine ⟨0, by omega, ?_⟩
      intro j hj
      have : j = 0 := by omega
      rw [this]
    · rcases ih hm with ⟨k, hk, hmax⟩
      rcases le_total (f m) (f k) with hle | hle
      · refine ⟨k, by omega, ?_⟩
        intro j hj
        rcases Nat.lt_or_ge j m with hjm | hjm
        · exact hmax j hjm
        · have : j = m := by omega
          rw [this]; exact hle
      · refine ⟨m, by omega, ?_⟩
        intro j hj
        rcases Nat.lt_or_ge j m with hjm | hjm
        · exact (hmax j hjm).trans hle
        · have : j = m := by omega
          rw [this]

/-- Dichotomy at an extremal vertex: a point strictly beyond the polygon in
direction `d` strictly violates one of the two half-planes of the edges
adjacent to the `d`-extremal vertex `k`. -/
theorem extremal_dichotomy (roi : List Point) (σ : Int) (h3 : 3 ≤ roi.length)
    (Hcr : ∀ i : Nat, 0 < σ * cross (edge roi i) (edge roi (i + 1)))
    (d : Vec) (k : Nat) (hk1 : 1 ≤ k)
    (hmax : ∀ j : Nat, d.dot (vtx roi j).toVec ≤ d.dot (vtx roi k).toVec)
    (q : Point) (hq : d.dot (vtx roi k).toVec < d.dot q.toVec) :
    σ * ((nrm roi (k - 1)).dot (vtx roi k).toVec) <
        σ * ((nrm roi (k - 1)).dot q.toVec) ∨
      σ * ((nrm roi k).dot (vtx roi k).toVec) <
        σ * ((nrm roi k).dot q.toVec) := by
  have hk' : k - 1 + 1 = k := by omega
  have hγ1 : 0 ≤ -((edge roi k).dot d) := by
    have h1 : (edge roi k).dot d =
        d.dot (vtx roi (k + 1)).toVec - d.dot (vtx roi k).toVec := by
      unfold edge
      rw [dot_comm, dot_point_sub]
    have := hmax (k + 1)
    omega
  have hγ2 : 0 ≤ (edge roi (k - 1)).dot d := by
    have h1 : (edge roi (k - 1)).dot d =
        d.dot (vtx roi k).toVec - d.dot (vtx roi (k - 1)).toVec := by
      unfold edge
      rw [hk', dot_comm, dot_point_sub]
    have := hmax (k - 1)
    omega
  have hD : 0 < σ * cross (edge roi (k - 1)) (edge roi k) := by
    have := Hcr (k - 1)
    rwa [hk'] at this
  by_contra hcon
  push_neg at hcon
  rcases hcon with ⟨hc1, hc2⟩
  have hq' : 0 < d.dot q.toVec - d.dot (vtx roi k).toVec := by omega
  have hcq := combo_identity (edge roi (k - 1)) (edge roi k) d q.toVec
  have hcv := combo_identity (edge roi (k - 1)) (edge roi k) d (vtx roi k).toVec
  have hn1 : nrm roi (k - 1) = (edge roi (k - 1)).Normal := rfl
  have hn2 : nrm roi k = (edge roi k).Normal := rfl
  rw [← hn1, ← hn2] at hcq hcv
  have hsum :
      (-((edge roi k).dot d)) *
          (σ * ((nrm roi (k - 1)).dot q.toVec) -
            σ * ((nrm roi (k - 1)).dot (vtx roi k).toVec)) +
        ((edge roi (k - 1)).dot d) *
          (σ * ((nrm roi k).dot q.toVec) -
            σ * ((nrm roi k).dot (vtx roi k).toVec)) =
      (σ * cross (edge roi (k - 1)) (edge roi k)) *
        (d.dot q.toVec - d.dot (vtx roi k).toVec) := by
    linear_combination σ * hcq - σ * hcv
  have hpos : 0 < (σ * cross (edge roi (k - 1)) (edge roi k)) *
      (d.dot q.toVec - d.dot (vtx roi k).toVec) := mul_pos hD hq'
  have ht1 : (-((edge roi k).dot d)) *
      (σ * ((nrm roi (k - 1)).dot q.toVec) -
        σ * ((nrm roi (k - 1)).dot (vtx roi k).toVec)) ≤ 0 :=
    mul_nonpos_of_nonneg_of_nonpos hγ1 (by omega)
  have ht2 : ((edge roi (k - 1)).dot d) *
      (σ * ((nrm roi k).dot q.toVec) -
        σ * ((nrm roi k).dot (vtx roi k).toVec)) ≤ 0 :=
    mul_nonpos_of_nonneg_of_nonpos hγ2 (by omega)
  linarith

/-- A strict inequality between dot products scaled by `σ = ±1` transfers to
one of the two plain orderings, uniformly over vertices and test points. -/
theorem sep_of_sigma (σ : Int) (hσ : σ = 1 ∨ σ = -1) (m : Vec)
    (roi : List Point) (q1 q2 : Point)
    (h : ∀ j < roi.length, ∀ q ∈ [q1, q2],
      σ * (m.dot (vtx roi j).toVec) < σ * (m.dot q.toVec)) :
    (∀ j < roi.length, ∀ q ∈ [q1, q2],
        m.dot (vtx roi j).toVec < m.dot q.toVec) ∨
      (∀ j < roi.length, ∀ q ∈ [q1, q2],
        m.dot q.toVec < m.dot (vtx roi j).toVec) := by
  rcases hσ with rfl | rfl
  · left
    intro j hj q hq
    have := h j hj q hq
    linarith
  · right
    intro j hj q hq
    have := h j hj q hq
    linarith

/-- Mirror of `sep_of_sigma` for the reversed scaled inequality. -/
theorem sep_of_sigma_rev (σ : Int) (hσ : σ = 1 ∨ σ = -1) (m : Vec)
    (roi : List Point) (q1 q2 : Point)
    (h : ∀ j < roi.length, ∀ q ∈ [q1, q2],
      σ * (m.dot q.toVec) < σ * (m.dot (vtx roi j).toVec)) :
    (∀ j < roi.length, ∀ q ∈ [q1, q2],
        m.dot (vtx roi j).toVec < m.dot q.toVec) ∨
      (∀ j < roi.length, ∀ q ∈ [q1, q2],
        m.dot q.toVec < m.dot (vtx roi j).toVec) := by
  rcases hσ with rfl | rfl
  · right
    intro j hj q hq
    have := h j hj q hq
    linarith
  · left
    intro j hj q hq
    have := h j hj q hq
    linarith

theorem dot_offset_sub (m d : Vec) (s : Int) (q1 : Point) :
    m.dot (Point.toVec ⟨q1.x + s * d.x, q1.y + s * d.y⟩) - m.dot q1.toVec =
      s * (m.dot d) := by
  unfold Vec.dot Point.toVec
  ring

/-- In a mixed configuration (the adjacent normal `m` tilts against the
direction `d` while every vertex is strictly behind `q1` in direction `d`
and strictly below the `m`-level of `q1`), every vertex lies strictly on the
low side of the `d.Normal`-line through `q1`. -/
theorem side_of_mixed (roi : List Point) (σ : Int) (d : Vec)
    (hd : 0 < d.dot d) (m : Vec) (q1 : Point)
    (hmd : σ * (m.dot d) < 0)
    (hmc : 0 ≤ m.dot d.Normal)
    (hq1 : ∀ j : Nat, d.dot (vtx roi j).toVec < d.dot q1.toVec)
    (hup : ∀ j : Nat, σ * (m.dot (vtx roi j).toVec) < σ * (m.dot q1.toVec)) :
    ∀ j : Nat, σ * (d.Normal.dot (vtx roi j).toVec) <
      σ * (d.Normal.dot q1.toVec) := by
  intro j
  by_contra hge
  push_neg at hge
  have hdec1 := dot_decompose d m (vtx roi j).toVec
  have hdec2 := dot_decompose d m q1.toVec
  have hkey : (d.dot d) *
      (σ * (m.dot (vtx roi j).toVec) - σ * (m.dot q1.toVec)) =
      (d.dot (vtx roi j).toVec - d.dot q1.toVec) * (σ * (m.dot d)) +
        (σ * (d.Normal.dot (vtx roi j).toVec) -
          σ * (d.Normal.dot q1.toVec)) * (m.dot d.Normal) := by
    linear_combination σ * hdec1 - σ * hdec2
  have hterm1 : 0 < (d.dot (vtx roi j).toVec - d.dot q1.toVec) *
      (σ * (m.dot d)) :=
    mul_pos_of_neg_of_neg (by have := hq1 j; linarith) hmd
  have hterm2 : 0 ≤ (σ * (d.Normal.dot (vtx roi j).toVec) -
      σ * (d.Normal.dot q1.toVec)) * (m.dot d.Normal) :=
    mul_nonneg (by linarith) hmc
  have hgt : 0 < (d.dot d) *
      (σ * (m.dot (vtx roi j).toVec) - σ * (m.dot q1.toVec)) := by
    rw [hkey]
    linarith
  have hle : σ * (m.dot (vtx roi j).toVec) - σ * (m.dot q1.toVec) ≤ 0 := by
    have := hup j
    linarith
  have := mul_nonpos_of_nonneg_of_nonpos hd.le hle
  linarith

/-- Mirror of `side_of_mixed` for a normal tilting the other way. -/
theorem side_of_mixed_rev (roi : List Point) (σ : Int) (d : Vec)
    (hd : 0 < d.dot d) (m : Vec) (q1 : Point)
    (hmd : σ * (m.dot d) < 0)
    (hmc : m.dot d.Normal ≤ 0)
    (hq1 : ∀ j : Nat, d.dot (vtx roi j).toVec < d.dot q1.toVec)
    (hup : ∀ j : Nat, σ * (m.dot (vtx roi j).toVec) < σ * (m.dot q1.toVec)) :
    ∀ j : Nat, σ * (d.Normal.dot q1.toVec) <
      σ * (d.Normal.dot (vtx roi j).toVec) := by
  intro j
  by_contra hge
  push_neg at hge
  have hdec1 := dot_decompose d m (vtx roi j).toVec
  have hdec2 := dot_decompose d m q1.toVec
  have hkey : (d.dot d) *
      (σ * (m.dot (vtx roi j).toVec) - σ * (m.dot q1.toVec)) =
      (d.dot (vtx roi j).toVec - d.dot q1.toVec) * (σ * (m.dot d)) +
        (σ * (d.Normal.dot (vtx roi j).toVec) -
          σ * (d.Normal.dot q1.toVec)) * (m.dot d.Normal) := by
    linear_combination σ * hdec1 - σ * hdec2
  have hterm1 : 0 < (d.dot (vtx roi j).toVec - d.dot q1.toVec) *
      (σ * (m.dot d)) :=
    mul_pos_of_neg_of_neg (by have := hq1 j; linarith) hmd
  have hterm2 : 0 ≤ (σ * (d.Normal.dot (vtx roi j).toVec) -
      σ * (d.Normal.dot q1.toVec)) * (m.dot d.Normal) := by
    have h1 : σ * (d.Normal.dot (vtx roi j).toVec) -
        σ * (d.Normal.dot q1.toVec) ≤ 0 := by linarith
    nlinarith
  have hgt : 0 < (d.dot d) *
      (σ * (m.dot (vtx roi j).toVec) - σ * (m.dot q1.toVec)) := by
    rw [hkey]
    linarith
  have hle : σ * (m.dot (vtx roi j).toVec) - σ * (m.dot q1.toVec) ≤ 0 := by
    have := hup j
    linarith
  have := mul_nonpos_of_nonneg_of_nonpos hd.le hle
  linarith

/-- Master separation lemma: for a convex, consistently wound ROI and two
test points `q1` and `q2 = q1 + s • d` strictly beyond the polygon in
direction `d`, either an edge normal of the ROI or the auxiliary axis
`s • d.Normal` puts all vertices strictly on one side and both test points
strictly on the other. -/
theorem master_separation (roi : List Point) (σ : Int) (hσ : σ = 1 ∨ σ = -1)
    (h3 : 3 ≤ roi.length)
    (Hhp : ∀ i j : Nat, σ * ((nrm roi i).dot (vtx roi j).toVec) ≤
      σ * ((nrm roi i).dot (vtx roi i).toVec))
    (Hcr : ∀ i : Nat, 0 < σ * cross (edge roi i) (edge roi (i + 1)))
    (d : Vec) (hd : 0 < d.dot d) (s : Int) (hs : 0 ≤ s) (q1 : Point)
    (hq1 : ∀ j : Nat, d.dot (vtx roi j).toVec < d.dot q1.toVec) :
    ∃ m : Vec,
      ((∃ i < roi.length, m = nrm roi i) ∨
        m = ⟨s * d.Normal.x, s * d.Normal.y⟩) ∧
      ((∀ j < roi.length, ∀ q ∈ [q1, ⟨q1.x + s * d.x, q1.y + s * d.y⟩],
          m.dot (vtx roi j).toVec < m.dot q.toVec) ∨
        (∀ j < roi.length, ∀ q ∈ [q1, ⟨q1.x + s * d.x, q1.y + s * d.y⟩],
          m.dot q.toVec < m.dot (vtx roi j).toVec)) := by
  have hn : 0 < roi.length := by omega
  obtain ⟨k0, hk0n, hmax0⟩ :=
    exists_argmax (fun j => d.dot (vtx roi j).toVec) roi.length hn
  have hk1 : 1 ≤ k0 + roi.length := by omega
  have hk' : k0 + roi.length - 1 + 1 = k0 + roi.length := by omega
  have hvkk0 : vtx roi (k0 + roi.length) = vtx roi k0 := vtx_add_len roi k0
  have hmax : ∀ j : Nat, d.dot (vtx roi j).toVec ≤
      d.dot (vtx roi (k0 + roi.length)).toVec := by
    intro j
    rw [hvkk0, ← vtx_mod roi j]
    exact hmax0 (j % roi.length) (Nat.mod_lt j hn)
  have hq1k : d.dot (vtx roi (k0 + roi.length)).toVec < d.dot q1.toVec :=
    hq1 (k0 + roi.length)
  have hq2v : d.dot (Point.toVec ⟨q1.x + s * d.x, q1.y + s * d.y⟩) =
      d.dot q1.toVec + s * (d.dot d) := by
    unfold Vec.dot Point.toVec
    ring
  have hq2k : d.dot (vtx roi (k0 + roi.length)).toVec <
      d.dot (Point.toVec ⟨q1.x + s * d.x, q1.y + s * d.y⟩) := by
    rw [hq2v]
    have := mul_nonneg hs hd.le
    linarith
  have hD1 := extremal_dichotomy roi σ h3 Hcr d (k0 + roi.length) hk1 hmax q1 hq1k
  have hD2 := extremal_dichotomy roi σ h3 Hcr d (k0 + roi.length) hk1 hmax
    ⟨q1.x + s * d.x, q1.y + s * d.y⟩ hq2k
  have hhp2 : ∀ j : Nat,
      σ * ((nrm roi (k0 + roi.length)).dot (vtx roi j).toVec) ≤
        σ * ((nrm roi (k0 + roi.length)).dot (vtx roi (k0 + roi.length)).toVec) :=
    fun j => Hhp (k0 + roi.length) j
  have hshift : (nrm roi (k0 + roi.length - 1)).dot
        (vtx roi (k0 + roi.length)).toVec =
      (nrm roi (k0 + roi.length - 1)).dot
        (vtx roi (k0 + roi.length - 1)).toVec := by
    have h0 : (nrm roi (k0 + roi.length - 1)).dot
        (edge roi (k0 + roi.length - 1)) = 0 := normal_dot_self _
    have h1 : (nrm roi (k0 + roi.length - 1)).dot
          (edge roi (k0 + roi.length - 1)) =
        (nrm roi (k0 + roi.length - 1)).dot
            (vtx roi (k0 + roi.length)).toVec -
          (nrm roi (k0 + roi.length - 1)).dot
            (vtx roi (k0 + roi.length - 1)).toVec := by
      unfold edge
      rw [hk', dot_point_sub]
    linarith
  have hhp1 : ∀ j : Nat,
      σ * ((nrm roi (k0 + roi.length - 1)).dot (vtx roi j).toVec) ≤
        σ * ((nrm roi (k0 + roi.length - 1)).dot
          (vtx roi (k0 + roi.length)).toVec) := by
    intro j
    rw [hshift]
    exact Hhp (k0 + roi.length - 1) j
  have hedgea : (nrm roi (k0 + roi.length - 1)).dot d.Normal =
      d.dot (vtx roi (k0 + roi.length)).toVec -
        d.dot (vtx roi (k0 + roi.length - 1)).toVec := by
    have h1 : (nrm roi (k0 + roi.length - 1)).dot d.Normal =
        (edge roi (k0 + roi.length - 1)).dot d := normal_dot_normal _ _
    rw [h1]
    unfold edge
    rw [hk', dot_comm, dot_point_sub]
  have hedgeb : (nrm roi (k0 + roi.length)).dot d.Normal =
      d.dot (vtx roi (k0 + roi.length + 1)).toVec -
        d.dot (vtx roi (k0 + roi.length)).toVec := by
    have h1 : (nrm roi (k0 + roi.length)).dot d.Normal =
        (edge roi (k0 + roi.length)).dot d := normal_dot_normal _ _
    rw [h1]
    unfold edge
    rw [dot_comm, dot_point_sub]
  by_cases hA1 : σ * ((nrm roi (k0 + roi.length - 1)).dot
      (vtx roi (k0 + roi.length)).toVec) <
      σ * ((nrm roi (k0 + roi.length - 1)).dot q1.toVec)
  · by_cases hA2 : σ * ((nrm roi (k0 + roi.length - 1)).dot
        (vtx roi (k0 + roi.length)).toVec) <
        σ * ((nrm roi (k0 + roi.length - 1)).dot
          (Point.toVec ⟨q1.x + s * d.x, q1.y + s * d.y⟩))
    · -- both test points violate the incoming edge's half-plane
      refine ⟨nrm roi (k0 + roi.length - 1),
        Or.inl ⟨(k0 + roi.length - 1) % roi.length, Nat.mod_lt _ hn,
          (nrm_mod roi h3 _).symm⟩, ?_⟩
      apply sep_of_sigma σ hσ
      intro j hj q hq
      have hb := hhp1 j
      rcases List.mem_cons.mp hq with rfl | hq
      · linarith
      · rcases List.mem_cons.mp hq with rfl | hq
        · linarith
        · cases hq
    · -- mixed: `q1` violates the incoming half-plane, `q2` does not
      push_neg at hA2
      have hdiffeq : σ * ((nrm roi (k0 + roi.length - 1)).dot
            (Point.toVec ⟨q1.x + s * d.x, q1.y + s * d.y⟩)) -
          σ * ((nrm roi (k0 + roi.length - 1)).dot q1.toVec) =
          σ * (s * ((nrm roi (k0 + roi.length - 1)).dot d)) := by
        have h1 := dot_offset_sub (nrm roi (k0 + roi.length - 1)) d s q1
        linear_combination σ * h1
      have hlt : σ * (s * ((nrm roi (k0 + roi.length - 1)).dot d)) < 0 := by
        linarith
      have hs_pos : 0 < s := by
        rcases lt_or_eq_of_le hs with h | h
        · exact h
        · exfalso
          rw [← h] at hlt
          simp at hlt
      have hnd : σ * ((nrm roi (k0 + roi.length - 1)).dot d) < 0 := by
        by_contra hge
        push_neg at hge
        have h2 : σ * (s * ((nrm roi (k0 + roi.length - 1)).dot d)) =
            s * (σ * ((nrm roi (k0 + roi.length - 1)).dot d)) := by ring
        have := mul_nonneg hs_pos.le hge
        linarith
      have hup : ∀ j : Nat,
          σ * ((nrm roi (k0 + roi.length - 1)).dot (vtx roi j).toVec) <
            σ * ((nrm roi (k0 + roi.length - 1)).dot q1.toVec) := by
        intro j
        have := hhp1 j
        linarith
      have hnc : 0 ≤ (nrm roi (k0 + roi.length - 1)).dot d.Normal := by
        rw [hedgea]
        have := hmax (k0 + roi.length - 1)
        linarith
      have hall := side_of_mixed roi σ d hd (nrm roi (k0 + roi.length - 1))
        q1 hnd hnc hq1 hup
      refine ⟨⟨s * d.Normal.x, s * d.Normal.y⟩, Or.inr rfl, ?_⟩
      have hmu : ∀ u : Point,
          σ * ((Vec.mk (s * d.Normal.x) (s * d.Normal.y)).dot u.toVec) =
            s * (σ * (d.Normal.dot u.toVec)) := by
        intro u
        unfold Vec.dot Point.toVec Vec.Normal
        ring
      have hq2c : d.Normal.dot
            (Point.toVec ⟨q1.x + s * d.x, q1.y + s * d.y⟩) =
          d.Normal.dot q1.toVec := by
        unfold Vec.Normal Vec.dot Point.toVec
        ring
      apply sep_of_sigma σ hσ
      intro j hj q hq
      have hj' : s * (σ * (d.Normal.dot (vtx roi j).toVec)) <
          s * (σ * (d.Normal.dot q1.toVec)) :=
        mul_lt_mul_of_pos_left (hall j) hs_pos
      rcases List.mem_cons.mp hq with rfl | hq
      · rw [hmu, hmu]
        exact hj'
      · rcases List.mem_cons.mp hq with rfl | hq
        · rw [hmu, hmu, hq2c]
          exact hj'
        · cases hq
  · have hB1 : σ * ((nrm roi (k0 + roi.length)).dot
        (vtx roi (k0 + roi.length)).toVec) <
        σ * ((nrm roi (k0 + roi.length)).dot q1.toVec) := by
      rcases hD1 with h | h
      · exact absurd h hA1
      · exact h
    by_cases hB2 : σ * ((nrm roi (k0 + roi.length)).dot
        (vtx roi (k0 + roi.length)).toVec) <
        σ * ((nrm roi (k0 + roi.length)).dot
          (Point.toVec ⟨q1.x + s * d.x, q1.y + s * d.y⟩))
    · -- both test points violate the outgoing edge's half-plane
      refine ⟨nrm roi (k0 + roi.length),
        Or.inl ⟨(k0 + roi.length) % roi.length, Nat.mod_lt _ hn,
          (nrm_mod roi h3 _).symm⟩, ?_⟩
      apply sep_of_sigma σ hσ
      intro j hj q hq
      have hb := hhp2 j
      rcases List.mem_cons.mp hq with rfl | hq
      · linarith
      · rcases List.mem_cons.mp hq with rfl | hq
        · linarith
        · cases hq
    · -- mixed: `q1` violates the outgoing half-plane, `q2` does not
      push_neg at hB2
      have hdiffeq : σ * ((nrm roi (k0 + roi.length)).dot
            (Point.toVec ⟨q1.x + s * d.x, q1.y + s * d.y⟩)) -
          σ * ((nrm roi (k0 + roi.length)).dot q1.toVec) =
          σ * (s * ((nrm roi (k0 + roi.length)).dot d)) := by
        have h1 := dot_offset_sub (nrm roi (k0 + roi.length)) d s q1
        linear_combination σ * h1
      have hlt : σ * (s * ((nrm roi (k0 + roi.length)).dot d)) < 0 := by
        linarith
      have hs_pos : 0 < s := by
        rcases lt_or_eq_of_le hs with h | h
        · exact h
        · exfalso
          rw [← h] at hlt
          simp at hlt
      have hnd : σ * ((nrm roi (k0 + roi.length)).dot d) < 0 := by
        by_contra hge
        push_neg at hge
        have h2 : σ * (s * ((nrm roi (k0 + roi.length)).dot d)) =
            s * (σ * ((nrm roi (k0 + roi.length)).dot d)) := by ring
        have := mul_nonneg hs_pos.le hge
        linarith
      have hup : ∀ j : Nat,
          σ * ((nrm roi (k0 + roi.length)).dot (vtx roi j).toVec) <
            σ * ((nrm roi (k0 + roi.length)).dot q1.toVec) := by
        intro j
        have := hhp2 j
        linarith
      have hnc : (nrm roi (k0 + roi.length)).dot d.Normal ≤ 0 := by
        rw [hedgeb]
        have := hmax (k0 + roi.length + 1)
        linarith
      have hall := side_of_mixed_rev roi σ d hd (nrm roi (k0 + roi.length))
        q1 hnd hnc hq1 hup
      refine ⟨⟨s * d.Normal.x, s * d.Normal.y⟩, Or.inr rfl, ?_⟩
      have hmu : ∀ u : Point,
          σ * ((Vec.mk (s * d.Normal.x) (s * d.Normal.y)).dot u.toVec) =
            s * (σ * (d.Normal.dot u.toVec)) := by
        intro u
        unfold Vec.dot Point.toVec Vec.Normal
        ring
      have hq2c : d.Normal.dot
            (Point.toVec ⟨q1.x + s * d.x, q1.y + s * d.y⟩) =
          d.Normal.dot q1.toVec := by
        unfold Vec.Normal Vec.dot Point.toVec
        ring
      apply sep_of_sigma_rev σ hσ
      intro j hj q hq
      have hj' : s * (σ * (d.Normal.dot q1.toVec)) <
          s * (σ * (d.Normal.dot (vtx roi j).toVec)) :=
        mul_lt_mul_of_pos_left (hall j) hs_pos
      rcases List.mem_cons.mp hq with rfl | hq
      · rw [hmu, hmu]
        exact hj'
      · rcases List.mem_cons.mp hq with rfl | hq
        · rw [hmu, hmu, hq2c]
          exact hj'
        · cases hq

/-! ### Connector lemmas between the code's loop and the spec's axes -/

theorem dot_horiz (c : Int) (p : Point) :
    (Vec.mk c 0).dot p.toVec = c * p.x := by
  unfold Vec.dot Point.toVec
  ring

theorem dot_vert (c : Int) (p : Point) :
    (Vec.mk 0 c).dot p.toVec = c * p.y := by
  unfold Vec.dot Point.toVec
  ring

theorem rectAxis01_eq (rect : Rect) : rectAxis01 rect = ⟨0, -rect.width⟩ := by
  have h0 : (rect_to_points rect).getD 0 Point.zero = ⟨rect.left, rect.top⟩ := rfl
  have h1 : (rect_to_points rect).getD 1 Point.zero =
      ⟨rect.left + rect.width, rect.top⟩ := rfl
  unfold rectAxis01
  rw [h0, h1]
  unfold Point.sub Vec.Normal
  simp only [Vec.mk.injEq]
  constructor <;> ring

theorem rectAxis12_eq (rect : Rect) : rectAxis12 rect = ⟨rect.height, 0⟩ := by
  have h1 : (rect_to_points rect).getD 1 Point.zero =
      ⟨rect.left + rect.width, rect.top⟩ := rfl
  have h2 : (rect_to_points rect).getD 2 Point.zero =
      ⟨rect.left + rect.width, rect.top + rect.height⟩ := rfl
  unfold rectAxis12
  rw [h1, h2]
  unfold Point.sub Vec.Normal
  simp only [Vec.mk.injEq]
  constructor <;> ring

/-- The axis the loop actually uses in its two rectangle iterations. -/
theorem axisAt_rect_eq (roi : List Point) (rect : Rect) (i : Nat)
    (h : roi.length ≤ i) :
    axisAt roi (rect_to_points rect) i = ⟨0, rect.width⟩ := by
  rw [axisAt_of_length_le roi (rect_to_points rect) i h]
  have h2 : (rect_to_points rect).getD 2 Point.zero =
      ⟨rect.left + rect.width, rect.top + rect.height⟩ := rfl
  have h3 : (rect_to_points rect).getD 3 Point.zero =
      ⟨rect.left, rect.top + rect.height⟩ := rfl
  rw [h2, h3]
  unfold Point.sub Vec.Normal
  simp only [Vec.mk.injEq]
  constructor <;> ring

theorem axisAt_of_lt (roi rp : List Point) (i : Nat) (hi : i < roi.length) :
    axisAt roi rp i = roiAxis roi i := by
  unfold axisAt roiAxis
  simp only [hi, if_true]

theorem rect_to_points_ne_nil (rect : Rect) : rect_to_points rect ≠ [] := by
  unfold rect_to_points
  simp

theorem mem_specAxes_roi (roi : List Point) (rect : Rect) (i : Nat)
    (hi : i < roi.length) : roiAxis roi i ∈ specAxes roi rect := by
  unfold specAxes
  refine List.mem_append_left _ ?_
  exact List.mem_map.mpr ⟨i, List.mem_range.mpr hi, rfl⟩

theorem mem_specAxes_01 (roi : List Point) (rect : Rect) :
    rectAxis01 rect ∈ specAxes roi rect := by
  unfold specAxes
  refine List.mem_append_right _ ?_
  exact List.mem_cons_self _ _

theorem mem_specAxes_12 (roi : List Point) (rect : Rect) :
    rectAxis12 rect ∈ specAxes roi rect := by
  unfold specAxes
  refine List.mem_append_right _ ?_
  exact List.mem_cons_of_mem _ (List.mem_cons_self _ _)

theorem specSeparates_of (roi : List Point) (rect : Rect) (m : Vec)
    (hm : m ∈ specAxes roi rect)
    (hsep : sepOn m roi (rect_to_points rect) = true) :
    specSeparates roi rect = true :=
  List.any_eq_true.mpr ⟨m, hm, hsep⟩

theorem sepOn_of_roi_lt (m : Vec) (roi rp : List Point)
    (hroi : roi ≠ []) (hrp : rp ≠ [])
    (h : ∀ p ∈ roi, ∀ q ∈ rp, m.dot p.toVec < m.dot q.toVec) :
    sepOn m roi rp = true := by
  have h1 : listMaxD (projList m roi) < listMinD (projList m rp) := by
    rcases mem_projList.mp (listMaxD_mem (projList_ne_nil hroi (m := m)))
      with ⟨p, hp, hpe⟩
    rcases mem_projList.mp (listMinD_mem (projList_ne_nil hrp (m := m)))
      with ⟨q, hq, hqe⟩
    rw [← hpe, ← hqe]
    exact h p hp q hq
  unfold sepOn
  simp [h1]

theorem sepOn_of_rect_lt (m : Vec) (roi rp : List Point)
    (hroi : roi ≠ []) (hrp : rp ≠ [])
    (h : ∀ p ∈ roi, ∀ q ∈ rp, m.dot q.toVec < m.dot p.toVec) :
    sepOn m roi rp = true := by
  have h1 : listMaxD (projList m rp) < listMinD (projList m roi) := by
    rcases mem_projList.mp (listMaxD_mem (projList_ne_nil hrp (m := m)))
      with ⟨q, hq, hqe⟩
    rcases mem_projList.mp (listMinD_mem (projList_ne_nil hroi (m := m)))
      with ⟨p, hp, hpe⟩
    rw [← hpe, ← hqe]
    exact h p hp q hq
  unfold sepOn
  simp [h1]

theorem all_lt_of_max_lt_min {A B : List Int} (h : listMaxD A < listMinD B) :
    ∀ a ∈ A, ∀ b ∈ B, a < b := by
  intro a ha b hb
  have h1 := listMaxD_le ha
  have h2 := listMinD_le hb
  linarith

/-- Under the coordinate bound, the code's strict test on an axis built from
two bounded points coincides with the spec's strict test on true minima and
maxima (the two disjuncts appear in swapped order). -/
theorem sep_code_eq_spec (roi : List Point) (rect : Rect)
    (hrne : roi ≠ []) (hbr : BoundedRoi roi) (hbt : BoundedRect rect)
    (m : Vec) (hmx : |m.x| ≤ 2 * coordBound) (hmy : |m.y| ≤ 2 * coordBound) :
    (decide (pjMin m (rect_to_points rect) > pjMax m roi) ||
      decide (pjMax m (rect_to_points rect) < pjMin m roi)) =
      sepOn m roi (rect_to_points rect) := by
  have hb1 : ∀ p ∈ roi, |m.dot p.toVec| ≤ 1073741824 := fun p hp =>
    proj_abs_le hmx hmy (hbr p hp).1 (hbr p hp).2
  have hb2 : ∀ p ∈ rect_to_points rect, |m.dot p.toVec| ≤ 1073741824 :=
    fun p hp => proj_abs_le hmx hmy (hbt p hp).1 (hbt p hp).2
  rw [pjMin_eq_listMinD m _ (rect_to_points_ne_nil rect) hb2,
    pjMax_eq_listMaxD m _ (rect_to_points_ne_nil rect) hb2,
    pjMin_eq_listMinD m roi hrne hb1, pjMax_eq_listMaxD m roi hrne hb1]
  unfold sepOn
  exact Bool.or_comm _ _

/-- The axes the SAT loop builds from the ROI are bounded. -/
theorem roiAxis_bounded (roi : List Point) (hrne : roi ≠ [])
    (hbr : BoundedRoi roi) (i : Nat) (hi : i < roi.length) :
    |(roiAxis roi i).x| ≤ 2 * coordBound ∧
      |(roiAxis roi i).y| ≤ 2 * coordBound := by
  unfold roiAxis
  exact sub_normal_bounded (hbr _ (getD_mem hi))
    (hbr _ (getD_mem (Nat.mod_lt _ (List.length_pos.mpr hrne))))

/-- Assemble a spec-level separation from an axis in the candidate list,
coverage of the rectangle corners by two test points, and one-sided
strict-ordering facts. -/
theorem specSep_from_facts (roi : List Point) (rect : Rect) (axis : Vec)
    (hax : axis ∈ specAxes roi rect) (hrne : roi ≠ []) (q1 q2 : Point)
    (hcov : ∀ q ∈ rect_to_points rect, q ∈ [q1, q2])
    (hfacts : (∀ j < roi.length, ∀ q ∈ [q1, q2],
        axis.dot (vtx roi j).toVec < axis.dot q.toVec) ∨
      (∀ j < roi.length, ∀ q ∈ [q1, q2],
        axis.dot q.toVec < axis.dot (vtx roi j).toVec)) :
    specSeparates roi rect = true := by
  apply specSeparates_of roi rect axis hax
  rcases hfacts with hf | hf
  · apply sepOn_of_roi_lt axis roi _ hrne (rect_to_points_ne_nil rect)
    intro p hp q hq
    rcases mem_vtx roi hp with ⟨j, hj, rfl⟩
    exact hf j hj q (hcov q hq)
  · apply sepOn_of_rect_lt axis roi _ hrne (rect_to_points_ne_nil rect)
    intro p hp q hq
    rcases mem_vtx roi hp with ⟨j, hj, rfl⟩
    exact hf j hj q (hcov q hq)

/-- One-sided strict-ordering facts are preserved (with sides swapped) when
the axis is negated. -/
theorem facts_flip (axis : Vec) (roi : List Point) (q1 q2 : Point)
    (h : (∀ j < roi.length, ∀ q ∈ [q1, q2],
        axis.dot (vtx roi j).toVec < axis.dot q.toVec) ∨
      (∀ j < roi.length, ∀ q ∈ [q1, q2],
        axis.dot q.toVec < axis.dot (vtx roi j).toVec)) :
    (∀ j < roi.length, ∀ q ∈ [q1, q2],
        axis.neg.dot (vtx roi j).toVec < axis.neg.dot q.toVec) ∨
      (∀ j < roi.length, ∀ q ∈ [q1, q2],
        axis.neg.dot q.toVec < axis.neg.dot (vtx roi j).toVec) := by
  rcases h with h | h
  · right
    intro j hj q hq
    rw [neg_dot, neg_dot]
    have := h j hj q hq
    linarith
  · left
    intro j hj q hq
    rw [neg_dot, neg_dot]
    have := h j hj q hq
    linarith

/-- A rectangle strictly to the right of the ROI is separated by one of the
spec's candidate axes. -/
theorem spec_sep_right (roi : List Point) (rect : Rect) (hw : ConvexWound roi)
    (h3 : 3 ≤ roi.length) (hwd : 0 ≤ rect.width) (hht : 0 ≤ rect.height)
    (hrej : listMaxD (roi.map Point.x) < rect.left) :
    specSeparates roi rect = true := by
  have hrne : roi ≠ [] := by
    intro h
    rw [h] at h3
    exact absurd h3 (by decide)
  have hvx : ∀ p ∈ roi, p.x < rect.left := fun p hp =>
    lt_of_le_of_lt (listMaxD_le (List.mem_map.mpr ⟨p, hp, rfl⟩)) hrej
  by_cases hh : rect.height = 0
  · -- degenerate rectangle: use the master separation lemma
    obtain ⟨σ, hσ, Hhp0, Hcr0⟩ := convexWound_elim roi hw
    have Hhp := halfplane_ext roi σ h3 Hhp0
    have Hcr := turns_ext roi σ h3 Hcr0
    have hd : (0 : Int) < (Vec.mk 1 0).dot (Vec.mk 1 0) := by decide
    have hq1 : ∀ j : Nat, (Vec.mk 1 0).dot (vtx roi j).toVec <
        (Vec.mk 1 0).dot (Point.toVec ⟨rect.left, rect.top⟩) := by
      intro j
      rw [dot_horiz, dot_horiz]
      have := hvx _ (vtx_mem roi hrne j)
      simpa using this
    obtain ⟨m, hmaxis, hmsep⟩ := master_separation roi σ hσ h3 Hhp Hcr
      ⟨1, 0⟩ hd rect.width hwd ⟨rect.left, rect.top⟩ hq1
    rcases hmaxis with ⟨i, hi, hm⟩ | hm
    · rw [hm, nrm_eq_roiAxis roi i hi] at hmsep
      refine specSep_from_facts roi rect _ (mem_specAxes_roi roi rect i hi)
        hrne _ _ ?_ hmsep
      intro q hq
      simp only [rect_to_points, List.mem_cons, List.not_mem_nil,
        or_false] at hq
      rcases hq with rfl | rfl | rfl | rfl <;>
        simp [List.mem_cons, Point.mk.injEq] <;> omega
    · have haux : m = rectAxis01 rect := by
        rw [hm, rectAxis01_eq]
        simp only [Vec.Normal, Vec.mk.injEq]
        constructor <;> ring
      rw [haux] at hmsep
      refine specSep_from_facts roi rect _ (mem_specAxes_01 roi rect)
        hrne _ _ ?_ hmsep
      intro q hq
      simp only [rect_to_points, List.mem_cons, List.not_mem_nil,
        or_false] at hq
      rcases hq with rfl | rfl | rfl | rfl <;>
        simp [List.mem_cons, Point.mk.injEq] <;> omega
  · -- proper rectangle: the axis from the rectangle's second edge separates
    have hhpos : 0 < rect.height := lt_of_le_of_ne hht (Ne.symm hh)
    apply specSeparates_of roi rect (rectAxis12 rect)
      (mem_specAxes_12 roi rect)
    apply sepOn_of_roi_lt _ _ _ hrne (rect_to_points_ne_nil rect)
    intro p hp q hq
    rw [rectAxis12_eq, dot_horiz, dot_horiz]
    have hqx : rect.left ≤ q.x := by
      simp only [rect_to_points, List.mem_cons, List.not_mem_nil,
        or_false] at hq
      rcases hq with rfl | rfl | rfl | rfl <;> simp <;> omega
    exact mul_lt_mul_of_pos_left (lt_of_lt_of_le (hvx p hp) hqx) hhpos

/-- A rectangle strictly to the left of the ROI is separated by one of the
spec's candidate axes. -/
theorem spec_sep_left (roi : List Point) (rect : Rect) (hw : ConvexWound roi)
    (h3 : 3 ≤ roi.length) (hwd : 0 ≤ rect.width) (hht : 0 ≤ rect.height)
    (hrej : rect.left + rect.width < listMinD (roi.map Point.x)) :
    specSeparates roi rect = true := by
  have hrne : roi ≠ [] := by
    intro h
    rw [h] at h3
    exact absurd h3 (by decide)
  have hvx : ∀ p ∈ roi, rect.left + rect.width < p.x := fun p hp =>
    lt_of_lt_of_le hrej (listMinD_le (List.mem_map.mpr ⟨p, hp, rfl⟩))
  by_cases hh : rect.height = 0
  · obtain ⟨σ, hσ, Hhp0, Hcr0⟩ := convexWound_elim roi hw
    have Hhp := halfplane_ext roi σ h3 Hhp0
    have Hcr := turns_ext roi σ h3 Hcr0
    have hd : (0 : Int) < (Vec.mk (-1) 0).dot (Vec.mk (-1) 0) := by decide
    have hq1 : ∀ j : Nat, (Vec.mk (-1) 0).dot (vtx roi j).toVec <
        (Vec.mk (-1) 0).dot
          (Point.toVec ⟨rect.left + rect.width, rect.top⟩) := by
      intro j
      rw [dot_horiz, dot_horiz]
      have := hvx _ (vtx_mem roi hrne j)
      simp only [Point.x]
      omega
    obtain ⟨m, hmaxis, hmsep⟩ := master_separation roi σ hσ h3 Hhp Hcr
      ⟨-1, 0⟩ hd rect.width hwd ⟨rect.left + rect.width, rect.top⟩ hq1
    rcases hmaxis with ⟨i, hi, hm⟩ | hm
    · rw [hm, nrm_eq_roiAxis roi i hi] at hmsep
      refine specSep_from_facts roi rect _ (mem_specAxes_roi roi rect i hi)
        hrne _ _ ?_ hmsep
      intro q hq
      simp only [rect_to_points, List.mem_cons, List.not_mem_nil,
        or_false] at hq
      rcases hq with rfl | rfl | rfl | rfl <;>
        simp [List.mem_cons, Point.mk.injEq] <;> omega
    · rw [hm] at hmsep
      have hflip := facts_flip _ roi _ _ hmsep
      have hneg : (⟨rect.width * (Vec.Normal ⟨-1, 0⟩).x,
          rect.width * (Vec.Normal ⟨-1, 0⟩).y⟩ : Vec).neg =
          rectAxis01 rect := by
        rw [rectAxis01_eq]
        simp only [Vec.Normal, Vec.neg, Vec.mk.injEq]
        constructor <;> ring
      rw [hneg] at hflip
      refine specSep_from_facts roi rect _ (mem_specAxes_01 roi rect)
        hrne _ _ ?_ hflip
      intro q hq
      simp only [rect_to_points, List.mem_cons, List.not_mem_nil,
        or_false] at hq
      rcases hq with rfl | rfl | rfl | rfl <;>
        simp [List.mem_cons, Point.mk.injEq] <;> omega
  · have hhpos : 0 < rect.height := lt_of_le_of_ne hht (Ne.symm hh)
    apply specSeparates_of roi rect (rectAxis12 rect)
      (mem_specAxes_12 roi rect)
    apply sepOn_of_rect_lt _ _ _ hrne (rect_to_points_ne_nil rect)
    intro p hp q hq
    rw [rectAxis12_eq, dot_horiz, dot_horiz]
    have hqx : q.x ≤ rect.left + rect.width := by
      simp only [rect_to_points, List.mem_cons, List.not_mem_nil,
        or_false] at hq
      rcases hq with rfl | rfl | rfl | rfl <;> simp <;> omega
    exact mul_lt_mul_of_pos_left (lt_of_le_of_lt hqx (hvx p hp)) hhpos

/-- A rectangle strictly below the ROI (in image coordinates: all corners
past the ROI's maximal `y`) is separated by one of the spec's candidate
axes. -/
theorem spec_sep_down (roi : List Point) (rect : Rect) (hw : ConvexWound roi)
    (h3 : 3 ≤ roi.length) (hwd : 0 ≤ rect.width) (hht : 0 ≤ rect.height)
    (hrej : listMaxD (roi.map Point.y) < rect.top) :
    specSeparates roi rect = true := by
  have hrne : roi ≠ [] := by
    intro h
    rw [h] at h3
    exact absurd h3 (by decide)
  have hvy : ∀ p ∈ roi, p.y < rect.top := fun p hp =>
    lt_of_le_of_lt (listMaxD_le (List.mem_map.mpr ⟨p, hp, rfl⟩)) hrej
  by_cases hh : rect.width = 0
  · obtain ⟨σ, hσ, Hhp0, Hcr0⟩ := convexWound_elim roi hw
    have Hhp := halfplane_ext roi σ h3 Hhp0
    have Hcr := turns_ext roi σ h3 Hcr0
    have hd : (0 : Int) < (Vec.mk 0 1).dot (Vec.mk 0 1) := by decide
    have hq1 : ∀ j : Nat, (Vec.mk 0 1).dot (vtx roi j).toVec <
        (Vec.mk 0 1).dot (Point.toVec ⟨rect.left, rect.top⟩) := by
      intro j
      rw [dot_vert, dot_vert]
      have := hvy _ (vtx_mem roi hrne j)
      simpa using this
    obtain ⟨m, hmaxis, hmsep⟩ := master_separation roi σ hσ h3 Hhp Hcr
      ⟨0, 1⟩ hd rect.height hht ⟨rect.left, rect.top⟩ hq1
    rcases hmaxis with ⟨i, hi, hm⟩ | hm
    · rw [hm, nrm_eq_roiAxis roi i hi] at hmsep
      refine specSep_from_facts roi rect _ (mem_specAxes_roi roi rect i hi)
        hrne _ _ ?_ hmsep
      intro q hq
      simp only [rect_to_points, List.mem_cons, List.not_mem_nil,
        or_false] at hq
      rcases hq with rfl | rfl | rfl | rfl <;>
        simp [List.mem_cons, Point.mk.injEq] <;> omega
    · have haux : m = rectAxis12 rect := by
        rw [hm, rectAxis12_eq]
        simp only [Vec.Normal, Vec.mk.injEq]
        constructor <;> ring
      rw [haux] at hmsep
      refine specSep_from_facts roi rect _ (mem_specAxes_12 roi rect)
        hrne _ _ ?_ hmsep
      intro q hq
      simp only [rect_to_points, List.mem_cons, List.not_mem_nil,
        or_false] at hq
      rcases hq with rfl | rfl | rfl | rfl <;>
        simp [List.mem_cons, Point.mk.injEq] <;> omega
  · have hwpos : 0 < rect.width := lt_of_le_of_ne hwd (Ne.symm hh)
    apply specSeparates_of roi rect (rectAxis01 rect)
      (mem_specAxes_01 roi rect)
    apply sepOn_of_rect_lt _ _ _ hrne (rect_to_points_ne_nil rect)
    intro p hp q hq
    rw [rectAxis01_eq, dot_vert, dot_vert]
    have hqy : rect.top ≤ q.y := by
      simp only [rect_to_points, List.mem_cons, List.not_mem_nil,
        or_false] at hq
      rcases hq with rfl | rfl | rfl | rfl <;> simp <;> omega
    have hpy : p.y < q.y := lt_of_lt_of_le (hvy p hp) hqy
    have : (0 : Int) < rect.width := hwpos
    nlinarith

/-- A rectangle strictly above the ROI (all corners before the ROI's minimal
`y`) is separated by one of the spec's candidate axes. -/
theorem spec_sep_up (roi : List Point) (rect : Rect) (hw : ConvexWound roi)
    (h3 : 3 ≤ roi.length) (hwd : 0 ≤ rect.width) (hht : 0 ≤ rect.height)
    (hrej : rect.top + rect.height < listMinD (roi.map Point.y)) :
    specSeparates roi rect = true := by
  have hrne : roi ≠ [] := by
    intro h
    rw [h] at h3
    exact absurd h3 (by decide)
  have hvy : ∀ p ∈ roi, rect.top + rect.height < p.y := fun p hp =>
    lt_of_lt_of_le hrej (listMinD_le (List.mem_map.mpr ⟨p, hp, rfl⟩))
  by_cases hh : rect.width = 0
  · obtain ⟨σ, hσ, Hhp0, Hcr0⟩ := convexWound_elim roi hw
    have Hhp := halfplane_ext roi σ h3 Hhp0
    have Hcr := turns_ext roi σ h3 Hcr0
    have hd : (0 : Int) < (Vec.mk 0 (-1)).dot (Vec.mk 0 (-1)) := by decide
    have hq1 : ∀ j : Nat, (Vec.mk 0 (-1)).dot (vtx roi j).toVec <
        (Vec.mk 0 (-1)).dot
          (Point.toVec ⟨rect.left, rect.top + rect.height⟩) := by
      intro j
      rw [dot_vert, dot_vert]
      have := hvy _ (vtx_mem roi hrne j)
      simp only [Point.y]
      omega
    obtain ⟨m, hmaxis, hmsep⟩ := master_separation roi σ hσ h3 Hhp Hcr
      ⟨0, -1⟩ hd rect.height hht ⟨rect.left, rect.top + rect.height⟩ hq1
    rcases hmaxis with ⟨i, hi, hm⟩ | hm
    · rw [hm, nrm_eq_roiAxis roi i hi] at hmsep
      refine specSep_from_facts roi rect _ (mem_specAxes_roi roi rect i hi)
        hrne _ _ ?_ hmsep
      intro q hq
      simp only [rect_to_points, List.mem_cons, List.not_mem_nil,
        or_false] at hq
      rcases hq with rfl | rfl | rfl | rfl <;>
        simp [List.mem_cons, Point.mk.injEq] <;> omega
    · rw [hm] at hmsep
      have hflip := facts_flip _ roi _ _ hmsep
      have hneg : (⟨rect.height * (Vec.Normal ⟨0, -1⟩).x,
          rect.height * (Vec.Normal ⟨0, -1⟩).y⟩ : Vec).neg =
          rectAxis12 rect := by
        rw [rectAxis12_eq]
        simp only [Vec.Normal, Vec.neg, Vec.mk.injEq]
        constructor <;> ring
      rw [hneg] at hflip
      refine specSep_from_facts roi rect _ (mem_specAxes_12 roi rect)
        hrne _ _ ?_ hflip
      intro q hq
      simp only [rect_to_points, List.mem_cons, List.not_mem_nil,
        or_false] at hq
      rcases hq with rfl | rfl | rfl | rfl <;>
        simp [List.mem_cons, Point.mk.injEq] <;> omega
  · have hwpos : 0 < rect.width := lt_of_le_of_ne hwd (Ne.symm hh)
    apply specSeparates_of roi rect (rectAxis01 rect)
      (mem_specAxes_01 roi rect)
    apply sepOn_of_roi_lt _ _ _ hrne (rect_to_points_ne_nil rect)
    intro p hp q hq
    rw [rectAxis01_eq, dot_vert, dot_vert]
    have hqy : q.y ≤ rect.top + rect.height := by
      simp only [rect_to_points, List.mem_cons, List.not_mem_nil,
        or_false] at hq
      rcases hq with rfl | rfl | rfl | rfl <;> simp <;> omega
    have hpy : q.y < p.y := lt_of_le_of_lt hqy (hvy p hp)
    have : (0 : Int) < rect.width := hwpos
    nlinarith

/-- A spec-level separation is preserved by negating the axis. -/
theorem sepOn_neg (m : Vec) (roi rp : List Point)
    (hroi : roi ≠ []) (hrp : rp ≠ [])
    (h : sepOn m roi rp = true) : sepOn m.neg roi rp = true := by
  unfold sepOn at h
  rw [Bool.or_eq_true] at h
  rcases h with h | h
  · have hpt := all_lt_of_max_lt_min (of_decide_eq_true h)
    apply sepOn_of_roi_lt m.neg roi rp hroi hrp
    intro p hp q hq
    rw [neg_dot, neg_dot]
    have := hpt _ (mem_projList.mpr ⟨q, hq, rfl⟩) _ (mem_projList.mpr ⟨p, hp, rfl⟩)
    linarith
  · have hpt := all_lt_of_max_lt_min (of_decide_eq_true h)
    apply sepOn_of_rect_lt m.neg roi rp hroi hrp
    intro p hp q hq
    rw [neg_dot, neg_dot]
    have := hpt _ (mem_projList.mpr ⟨p, hp, rfl⟩) _ (mem_projList.mpr ⟨q, hq, rfl⟩)
    linarith

/-- The width of a bounded rectangle is bounded by twice the coordinate
bound (it is the difference of two bounded corner coordinates). -/
theorem width_bounded (rect : Rect) (hbt : BoundedRect rect) :
    |rect.width| ≤ 2 * coordBound := by
  have h0 := hbt ⟨rect.left, rect.top⟩ (by simp [rect_to_points])
  have h1 := hbt ⟨rect.left + rect.width, rect.top⟩ (by simp [rect_to_points])
  have h0' : |rect.left| ≤ coordBound := h0.1
  have h1' : |rect.left + rect.width| ≤ coordBound := h1.1
  rcases abs_le.mp h0' with ⟨a1, a2⟩
  rcases abs_le.mp h1' with ⟨b1, b2⟩
  rw [abs_le]
  constructor <;> omega

/-- A separation found by the SAT loop at any iteration yields a spec-level
separating axis among the candidates. -/
theorem spec_sep_of_loop (roi : List Point) (rect : Rect)
    (h3 : 3 ≤ roi.length) (hbr : BoundedRoi roi) (hbt : BoundedRect rect)
    (i : Nat) (hsep : separatesAt roi (rect_to_points rect) i = true) :
    specSeparates roi rect = true := by
  have hrne : roi ≠ [] := by
    intro h
    rw [h] at h3
    exact absurd h3 (by decide)
  by_cases hi : i < roi.length
  · unfold separatesAt at hsep
    rw [axisAt_of_lt _ _ _ hi] at hsep
    have hb := roiAxis_bounded roi hrne hbr i hi
    rw [sep_code_eq_spec roi rect hrne hbr hbt _ hb.1 hb.2] at hsep
    exact specSeparates_of roi rect _ (mem_specAxes_roi roi rect i hi) hsep
  · unfold separatesAt at hsep
    rw [axisAt_rect_eq roi rect i (not_lt.mp hi)] at hsep
    have hb0 : |(0 : Int)| ≤ 2 * coordBound := by decide
    have hw2 := width_bounded rect hbt
    rw [sep_code_eq_spec roi rect hrne hbr hbt ⟨0, rect.width⟩ hb0 hw2] at hsep
    have h1 := sepOn_neg ⟨0, rect.width⟩ roi (rect_to_points rect) hrne
      (rect_to_points_ne_nil rect) hsep
    have h2 : (Vec.mk 0 rect.width).neg = rectAxis01 rect := by
      rw [rectAxis01_eq]
      simp [Vec.neg, Vec.mk.injEq]
    rw [h2] at h1
    exact specSeparates_of roi rect _ (mem_specAxes_01 roi rect) h1

/-- When the prefilter does not reject, every spec-level separating axis is
matched by a separation found in the SAT loop. -/
theorem loop_sep_of_spec (roi : List Point) (rect : Rect)
    (h3 : 3 ≤ roi.length) (hwd : 0 ≤ rect.width) (hht : 0 ≤ rect.height)
    (hbr : BoundedRoi roi) (hbt : BoundedRect rect)
    (hp : prefilterReject roi rect = false)
    (hs : specSeparates roi rect = true) :
    (List.range (roi.length + 2)).any
      (fun i => separatesAt roi (rect_to_points rect) i) = true := by
  have hrne : roi ≠ [] := by
    intro h
    rw [h] at h3
    exact absurd h3 (by decide)
  unfold specSeparates at hs
  rcases List.any_eq_true.mp hs with ⟨m, hm, hsep⟩
  unfold specAxes at hm
  rcases List.mem_append.mp hm with hm | hm
  · rcases List.mem_map.mp hm with ⟨i, hir, rfl⟩
    have hi := List.mem_range.mp hir
    refine List.any_eq_true.mpr ⟨i, List.mem_range.mpr (by omega), ?_⟩
    unfold separatesAt
    rw [axisAt_of_lt _ _ _ hi]
    have hb := roiAxis_bounded roi hrne hbr i hi
    rw [sep_code_eq_spec roi rect hrne hbr hbt _ hb.1 hb.2]
    exact hsep
  · rcases List.mem_cons.mp hm with rfl | hm
    · refine List.any_eq_true.mpr
        ⟨roi.length, List.mem_range.mpr (by omega), ?_⟩
      unfold separatesAt
      rw [axisAt_rect_eq roi rect roi.length (le_refl _)]
      have hb0 : |(0 : Int)| ≤ 2 * coordBound := by decide
      have hw2 := width_bounded rect hbt
      rw [sep_code_eq_spec roi rect hrne hbr hbt ⟨0, rect.width⟩ hb0 hw2]
      have h1 := sepOn_neg (rectAxis01 rect) roi (rect_to_points rect) hrne
        (rect_to_points_ne_nil rect) hsep
      have h2 : (rectAxis01 rect).neg = ⟨0, rect.width⟩ := by
        rw [rectAxis01_eq]
        simp [Vec.neg, Vec.mk.injEq]
      rw [h2] at h1
      exact h1
    · rcases List.mem_cons.mp hm with rfl | hm
      · -- the `(height, 0)` axis cannot separate when the prefilter passed
        exfalso
        unfold prefilterReject at hp
        simp only [Bool.or_eq_false_iff, decide_eq_false_iff_not, not_lt] at hp
        have hx2 : rect.left ≤ listMaxD (roi.map Point.x) := by
          have := hp.1.1.1
          rwa [roiBBox_x2 roi hrne hbr] at this
        have hx1 : listMinD (roi.map Point.x) ≤ rect.left + rect.width := by
          have := hp.1.1.2
          rwa [roiBBox_x1 roi hrne hbr] at this
        rw [rectAxis12_eq] at hsep
        unfold sepOn at hsep
        rw [Bool.or_eq_true] at hsep
        rcases hsep with hcase | hcase
        · have h1 := of_decide_eq_true hcase
          have hmem1 : rect.height * (rect.left + rect.width) ∈
              projList ⟨rect.height, 0⟩ (rect_to_points rect) := by
            refine mem_projList.mpr
              ⟨⟨rect.left + rect.width, rect.top⟩, by simp [rect_to_points], ?_⟩
            rw [dot_horiz]
          rcases List.mem_map.mp (listMinD_mem
              (show roi.map Point.x ≠ [] by simpa using hrne))
            with ⟨p, hpmem, hpx⟩
          have hmem2 : rect.height * listMinD (roi.map Point.x) ∈
              projList ⟨rect.height, 0⟩ roi := by
            refine mem_projList.mpr ⟨p, hpmem, ?_⟩
            rw [dot_horiz, hpx]
          have ha := listMaxD_le hmem1
          have hb := listMinD_le hmem2
          have hmono : rect.height * listMinD (roi.map Point.x) ≤
              rect.height * (rect.left + rect.width) :=
            mul_le_mul_of_nonneg_left hx1 hht
          linarith
        · have h1 := of_decide_eq_true hcase
          have hmem1 : rect.height * rect.left ∈
              projList ⟨rect.height, 0⟩ (rect_to_points rect) := by
            refine mem_projList.mpr
              ⟨⟨rect.left, rect.top⟩, by simp [rect_to_points], ?_⟩
            rw [dot_horiz]
          rcases List.mem_map.mp (listMaxD_mem
              (show roi.map Point.x ≠ [] by simpa using hrne))
            with ⟨p, hpmem, hpx⟩
          have hmem2 : rect.height * listMaxD (roi.map Point.x) ∈
              projList ⟨rect.height, 0⟩ roi := by
            refine mem_projList.mpr ⟨p, hpmem, ?_⟩
            rw [dot_horiz, hpx]
          have ha := listMinD_le hmem1
          have hb := listMaxD_le hmem2
          have hmono : rect.height * rect.left ≤
              rect.height * listMaxD (roi.map Point.x) :=
            mul_le_mul_of_nonneg_left hx2 hht
          linarith
      · cases hm

/-! ### The easy claims -/

/-- Claim C8: `rect_to_points` returns exactly the four corners
`[(left,top), (left+width,top), (left+width,top+height), (left,top+height)]`
in that order, with no failure mode (it is a total function). -/
theorem rect_to_points_spec (rect : Rect) :
    rect_to_points rect =
      [⟨rect.left, rect.top⟩,
       ⟨rect.left + rect.width, rect.top⟩,
       ⟨rect.left + rect.width, rect.top + rect.height⟩,
       ⟨rect.left, rect.top + rect.height⟩] := rfl

/-- Claim C6: for fewer than 3 ROI points, `collision_detect` returns `false`
after emitting the diagnostic `"roi points must >= 3"`, for every rectangle;
the embedding is a total function (no exception), and the `false` is produced
by the degenerate-input branch alone, before the prefilter or the SAT loop. -/
theorem collision_detect_degenerate (roi : List Point) (rect : Rect)
    (h : roi.length < 3) :
    collision_detect_out roi rect = (false, ["roi points must >= 3"]) ∧
      collision_detect roi rect = false := by
  constructor
  · simp [collision_detect_out, h]
  · simp [collision_detect, h]

/-- Witness for C6 at the concrete degenerate input `[(1,1)]` with `rect1`. -/
theorem collision_detect_degenerate_witness :
    ([(⟨1, 1⟩ : Point)].length < 3) ∧
      (collision_detect_out [⟨1, 1⟩] rect1 = (false, ["roi points must >= 3"]) ∧
        collision_detect [⟨1, 1⟩] rect1 = false) :=
  ⟨by decide, collision_detect_degenerate [⟨1, 1⟩] rect1 (by decide)⟩

/-- Claim C5: the four demonstration scenarios of `main` evaluate as the spec
says: `rect1` (boundary touch on the hypotenuse) collides, `rect2` does not,
`rect3` is rejected by the bounding-box prefilter alone, `rect4` collides. -/
theorem demo_scenarios :
    collision_detect roiDemo rect1 = true ∧
      collision_detect roiDemo rect2 = false ∧
      collision_detect roiDemo rect3 = false ∧
      prefilterReject roiDemo rect3 = true ∧
      collision_detect roiDemo rect4 = true := by
  decide

/-- Claim C1 (counter-evidence): at the two rectangle iterations `i = 3` and
`i = 4` for the demonstration triangle and `rect1`, the SAT loop uses the
normal of the edge from rectangle vertex 2 to vertex 3 — `(0, 100)` — both
times, which differs from the normals of the rectangle's first two edges,
`(0, -100)` (edge 0→1) and `(100, 0)` (edge 1→2), that the claim announces. -/
theorem rect_axes_diverge_from_claim :
    axisAt roiDemo (rect_to_points rect1) 3 = ⟨0, 100⟩ ∧
      axisAt roiDemo (rect_to_points rect1) 4 = ⟨0, 100⟩ ∧
      (((rect_to_points rect1).getD 1 Point.zero).sub
          ((rect_to_points rect1).getD 0 Point.zero)).Normal = ⟨0, -100⟩ ∧
      (((rect_to_points rect1).getD 2 Point.zero).sub
          ((rect_to_points rect1).getD 1 Point.zero)).Normal = ⟨100, 0⟩ ∧
      (⟨0, 100⟩ : Vec) ≠ ⟨0, -100⟩ ∧ (⟨0, 100⟩ : Vec) ≠ ⟨100, 0⟩ := by
  decide

/-- Claim C3 (counter-evidence): for the convex triangle `roiSliver` and the
rectangle `rectSliver`, the prefilter rejects (so `collision_detect` returns
`false`), yet the SAT loop on its own finds no separating axis: removing the
prefilter early-return changes the returned value from `false` to `true`. -/
theorem prefilter_not_redundant :
    prefilterReject roiSliver rectSliver = true ∧
      collision_detect roiSliver rectSliver = false ∧
      collision_detect_noPrefilter roiSliver rectSliver = true := by
  decide

/-- Claim C9: both rectangle iterations of the SAT loop use the identical
axis, the normal of the rectangle edge from vertex 2 to vertex 3, and
dropping the final loop iteration never changes the returned value. -/
theorem dropLast_iteration_redundant (roi : List Point) (rect : Rect) :
    axisAt roi (rect_to_points rect) roi.length =
        axisAt roi (rect_to_points rect) (roi.length + 1) ∧
      axisAt roi (rect_to_points rect) roi.length =
        (((rect_to_points rect).getD 3 Point.zero).sub
          ((rect_to_points rect).getD 2 Point.zero)).Normal ∧
      collision_detect_dropLast roi rect = collision_detect roi rect := by
  refine ⟨?_, ?_, ?_⟩
  · rw [axisAt_of_length_le _ _ _ (Nat.le_refl _),
      axisAt_of_length_le _ _ _ (Nat.le_succ _)]
  · exact axisAt_of_length_le _ _ _ (Nat.le_refl _)
  · unfold collision_detect_dropLast collision_detect satLoop
    rcases Nat.lt_or_ge roi.length 3 with h3 | h3
    · simp [h3]
    · have h3' : ¬ roi.length < 3 := not_lt.mpr h3
      simp only [h3', if_false]
      rcases Bool.eq_false_or_eq_true (prefilterReject roi rect) with hp | hp
      · simp [hp]
      · have hsep : separatesAt roi (rect_to_points rect) (roi.length + 1) =
            separatesAt roi (rect_to_points rect) roi.length := by
          unfold separatesAt
          rw [axisAt_of_length_le _ _ _ (Nat.le_succ _),
            axisAt_of_length_le _ _ _ (Nat.le_refl _)]
        have e2 : (List.range (roi.length + 2)).any
              (fun i => separatesAt roi (rect_to_points rect) i) =
            (List.range (roi.length + 1)).any
              (fun i => separatesAt roi (rect_to_points rect) i) := by
          rw [range_any_succ, hsep, range_any_succ]
          rcases Bool.eq_false_or_eq_true
              (separatesAt roi (rect_to_points rect) roi.length) with hs | hs <;>
            simp [hs]
        simp only [hp]
        simp
        exact e2.symm

/-! ### The bounding-box prefilter (C7) -/

theorem abs_le_int_max {x : Int} (h : |x| ≤ coordBound) : x ≤ INT_MAX := by
  rcases abs_le.mp h with ⟨h1, h2⟩
  unfold coordBound at h2
  unfold INT_MAX
  omega

theorem int_min_le_abs {x : Int} (h : |x| ≤ coordBound) : INT_MIN ≤ x := by
  rcases abs_le.mp h with ⟨h1, h2⟩
  unfold coordBound at h1
  unfold INT_MIN
  omega

/-- Claim C7: for a ROI with at least 3 bounded vertices, the prefilter's
`(x1, y1)` is the coordinatewise minimum and `(x2, y2)` the coordinatewise
maximum of the ROI vertices, the early return fires exactly under the
stated AABB-disjointness condition, and it yields `false`. -/
theorem prefilter_bbox_spec (roi : List Point) (rect : Rect)
    (h3 : 3 ≤ roi.length) (hb : BoundedRoi roi) :
    ((roiBBox roi).1 ∈ roi.map Point.x ∧ ∀ v ∈ roi.map Point.x, (roiBBox roi).1 ≤ v) ∧
      ((roiBBox roi).2.1 ∈ roi.map Point.y ∧ ∀ v ∈ roi.map Point.y, (roiBBox roi).2.1 ≤ v) ∧
      ((roiBBox roi).2.2.1 ∈ roi.map Point.x ∧ ∀ v ∈ roi.map Point.x, v ≤ (roiBBox roi).2.2.1) ∧
      ((roiBBox roi).2.2.2 ∈ roi.map Point.y ∧ ∀ v ∈ roi.map Point.y, v ≤ (roiBBox roi).2.2.2) ∧
      (prefilterReject roi rect = true ↔
        (rect.left > (roiBBox roi).2.2.1 ∨ rect.left + rect.width < (roiBBox roi).1 ∨
         rect.top > (roiBBox roi).2.2.2 ∨ rect.top + rect.height < (roiBBox roi).2.1)) ∧
      (prefilterReject roi rect = true → collision_detect roi rect = false) := by
  have hne : roi ≠ [] := by
    intro h
    rw [h] at h3
    exact absurd h3 (by decide)
  have hnex : roi.map Point.x ≠ [] := by
    simpa using hne
  have hney : roi.map Point.y ≠ [] := by
    simpa using hne
  have hxmem : ∀ v ∈ roi.map Point.x, |v| ≤ coordBound := by
    intro v hv
    rcases List.mem_map.mp hv with ⟨p, hp, rfl⟩
    exact (hb p hp).1
  have hymem : ∀ v ∈ roi.map Point.y, |v| ≤ coordBound := by
    intro v hv
    rcases List.mem_map.mp hv with ⟨p, hp, rfl⟩
    exact (hb p hp).2
  have ex1 : (roiBBox roi).1 = listMinD (roi.map Point.x) := by
    show roi.foldl (fun m p => min m p.x) INT_MAX = _
    rw [← List.foldl_map Point.x min roi INT_MAX]
    exact foldl_min_eq_listMinD _ _ hnex (fun x hx => abs_le_int_max (hxmem x hx))
  have ey1 : (roiBBox roi).2.1 = listMinD (roi.map Point.y) := by
    show roi.foldl (fun m p => min m p.y) INT_MAX = _
    rw [← List.foldl_map Point.y min roi INT_MAX]
    exact foldl_min_eq_listMinD _ _ hney (fun x hx => abs_le_int_max (hymem x hx))
  have ex2 : (roiBBox roi).2.2.1 = listMaxD (roi.map Point.x) := by
    show roi.foldl (fun m p => max m p.x) INT_MIN = _
    rw [← List.foldl_map Point.x max roi INT_MIN]
    exact foldl_max_eq_listMaxD _ _ hnex (fun x hx => int_min_le_abs (hxmem x hx))
  have ey2 : (roiBBox roi).2.2.2 = listMaxD (roi.map Point.y) := by
    show roi.foldl (fun m p => max m p.y) INT_MIN = _
    rw [← List.foldl_map Point.y max roi INT_MIN]
    exact foldl_max_eq_listMaxD _ _ hney (fun x hx => int_min_le_abs (hymem x hx))
  refine ⟨⟨?_, ?_⟩, ⟨?_, ?_⟩, ⟨?_, ?_⟩, ⟨?_, ?_⟩, ?_, ?_⟩
  · rw [ex1]; exact listMinD_mem hnex
  · intro v hv; rw [ex1]; exact listMinD_le hv
  · rw [ey1]; exact listMinD_mem hney
  · intro v hv; rw [ey1]; exact listMinD_le hv
  · rw [ex2]; exact listMaxD_mem hnex
  · intro v hv; rw [ex2]; exact listMaxD_le hv
  · rw [ey2]; exact listMaxD_mem hney
  · intro v hv; rw [ey2]; exact listMaxD_le hv
  · simp [prefilterReject, Bool.or_eq_true, decide_eq_true_iff, or_assoc]
  · intro hrej
    have h3' : ¬ roi.length < 3 := not_lt.mpr h3
    simp [collision_detect, h3', hrej]

/-- Witness for C7 at the demonstration triangle and `rect3`. -/
theorem prefilter_bbox_spec_witness :
    (3 ≤ roiDemo.length ∧ BoundedRoi roiDemo) ∧
      (((roiBBox roiDemo).1 ∈ roiDemo.map Point.x ∧
          ∀ v ∈ roiDemo.map Point.x, (roiBBox roiDemo).1 ≤ v) ∧
        ((roiBBox roiDemo).2.1 ∈ roiDemo.map Point.y ∧
          ∀ v ∈ roiDemo.map Point.y, (roiBBox roiDemo).2.1 ≤ v) ∧
        ((roiBBox roiDemo).2.2.1 ∈ roiDemo.map Point.x ∧
          ∀ v ∈ roiDemo.map Point.x, v ≤ (roiBBox roiDemo).2.2.1) ∧
        ((roiBBox roiDemo).2.2.2 ∈ roiDemo.map Point.y ∧
          ∀ v ∈ roiDemo.map Point.y, v ≤ (roiBBox roiDemo).2.2.2) ∧
        (prefilterReject roiDemo rect3 = true ↔
          (rect3.left > (roiBBox roiDemo).2.2.1 ∨
           rect3.left + rect3.width < (roiBBox roiDemo).1 ∨
           rect3.top > (roiBBox roiDemo).2.2.2 ∨
           rect3.top + rect3.height < (roiBBox roiDemo).2.1)) ∧
        (prefilterReject roiDemo rect3 = true →
          collision_detect roiDemo rect3 = false)) :=
  ⟨⟨by decide, by unfold BoundedRoi; decide⟩,
    prefilter_bbox_spec roiDemo rect3 (by decide) (by unfold BoundedRoi; decide)⟩

/-! ### The inclusive boundary policy (C4) -/

/-- Claim C4: interval disjointness is tested with strict inequalities only.
Whenever the AABBs overlap or touch (the prefilter does not reject) and on
every candidate axis the projection intervals overlap or merely touch
(`rec_pj_min ≤ roi_pj_max` and `roi_pj_min ≤ rec_pj_max`, equality — a
boundary touch — allowed), `collision_detect` reports a collision. -/
theorem touch_is_collision (roi : List Point) (rect : Rect)
    (h3 : 3 ≤ roi.length)
    (hpre : prefilterReject roi rect = false)
    (htouch : ∀ i < roi.length + 2,
      pjMin (axisAt roi (rect_to_points rect) i) (rect_to_points rect) ≤
          pjMax (axisAt roi (rect_to_points rect) i) roi ∧
        pjMin (axisAt roi (rect_to_points rect) i) roi ≤
          pjMax (axisAt roi (rect_to_points rect) i) (rect_to_points rect)) :
    collision_detect roi rect = true := by
  have h3' : ¬ roi.length < 3 := not_lt.mpr h3
  have hany : (List.range (roi.length + 2)).any
      (fun i => separatesAt roi (rect_to_points rect) i) = false := by
    rcases Bool.eq_false_or_eq_true ((List.range (roi.length + 2)).any
        (fun i => separatesAt roi (rect_to_points rect) i)) with h | h
    · exfalso
      rcases List.any_eq_true.mp h with ⟨i, hmem, hsep⟩
      have hi : i < roi.length + 2 := List.mem_range.mp hmem
      rcases htouch i hi with ⟨ht1, ht2⟩
      unfold separatesAt at hsep
      rw [Bool.or_eq_true] at hsep
      rcases hsep with hc | hc
      · exact absurd (of_decide_eq_true hc) (not_lt.mpr ht1)
      · exact absurd (of_decide_eq_true hc) (not_lt.mpr ht2)
    · exact h
  simp [collision_detect, satLoop, h3', hpre, hany]

/-- Witness for C4: `rect1` touches the demonstration triangle exactly on
its hypotenuse (the projection intervals on the hypotenuse normal touch
with equality), and the result is a collision. -/
theorem touch_is_collision_witness :
    (3 ≤ roiDemo.length ∧ prefilterReject roiDemo rect1 = false ∧
      (∀ i < roiDemo.length + 2,
        pjMin (axisAt roiDemo (rect_to_points rect1) i) (rect_to_points rect1) ≤
            pjMax (axisAt roiDemo (rect_to_points rect1) i) roiDemo ∧
          pjMin (axisAt roiDemo (rect_to_points rect1) i) roiDemo ≤
            pjMax (axisAt roiDemo (rect_to_points rect1) i) (rect_to_points rect1)) ∧
      pjMin (axisAt roiDemo (rect_to_points rect1) 2) (rect_to_points rect1) =
        pjMax (axisAt roiDemo (rect_to_points rect1) 2) roiDemo) ∧
      collision_detect roiDemo rect1 = true :=
  ⟨⟨by decide, by decide, by decide, by decide⟩,
    touch_is_collision roiDemo rect1 (by decide) (by decide) (by decide)⟩

/-! ### The separating-axis equivalence (C2) -/

/-- Claim C2: for every convex, consistently wound ROI with at least 3
vertices and every rectangle with non-negative width and height (within the
32-bit-safe coordinate bound), `collision_detect` returns `true` if and only
if none of the `|A| + 2` candidate axes named by the spec — the ROI edge
normals and the normals of the rectangle's first two edges — strictly
separates the projection intervals of the two shapes. -/
theorem collision_iff_no_separating_axis (roi : List Point) (rect : Rect)
    (hw : ConvexWound roi) (h3 : 3 ≤ roi.length)
    (hwd : 0 ≤ rect.width) (hht : 0 ≤ rect.height)
    (hbr : BoundedRoi roi) (hbt : BoundedRect rect) :
    collision_detect roi rect = true ↔ specSeparates roi rect = false := by
  have h3' : ¬ roi.length < 3 := not_lt.mpr h3
  have hrne : roi ≠ [] := by
    intro h
    rw [h] at h3
    exact absurd h3 (by decide)
  rcases Bool.eq_false_or_eq_true (prefilterReject roi rect) with hp | hp
  · -- the prefilter rejects: the result is `false` and a spec axis separates
    have hcd : collision_detect roi rect = false := by
      simp [collision_detect, h3', hp]
    have hspec : specSeparates roi rect = true := by
      unfold prefilterReject at hp
      simp only [Bool.or_eq_true, decide_eq_true_eq] at hp
      rcases hp with ((hc | hc) | hc) | hc
      · rw [roiBBox_x2 roi hrne hbr] at hc
        exact spec_sep_right roi rect hw h3 hwd hht hc
      · rw [roiBBox_x1 roi hrne hbr] at hc
        exact spec_sep_left roi rect hw h3 hwd hht hc
      · rw [roiBBox_y2 roi hrne hbr] at hc
        exact spec_sep_down roi rect hw h3 hwd hht hc
      · rw [roiBBox_y1 roi hrne hbr] at hc
        exact spec_sep_up roi rect hw h3 hwd hht hc
    rw [hcd, hspec]
    simp
  · -- the prefilter passes: the loop and the spec axes agree
    have hcd : collision_detect roi rect =
        !((List.range (roi.length + 2)).any
          (fun i => separatesAt roi (rect_to_points rect) i)) := by
      simp [collision_detect, h3', hp, satLoop]
    rcases Bool.eq_false_or_eq_true ((List.range (roi.length + 2)).any
        (fun i => separatesAt roi (rect_to_points rect) i)) with hl | hl
    · rcases List.any_eq_true.mp hl with ⟨i, _, hisep⟩
      have hspec := spec_sep_of_loop roi rect h3 hbr hbt i hisep
      rw [hcd, hl, hspec]
      simp
    · have hspec : specSeparates roi rect = false := by
        rcases Bool.eq_false_or_eq_true (specSeparates roi rect) with hs | hs
        · have := loop_sep_of_spec roi rect h3 hwd hht hbr hbt hp hs
          rw [hl] at this
          exact absurd this (by simp)
        · exact hs
      rw [hcd, hl, hspec]
      simp

/-- Witness for C2 at the demonstration triangle (convex, counter-clockwise)
and `rect4`. -/
theorem collision_iff_no_separating_axis_witness :
    (ConvexWound roiDemo ∧ 3 ≤ roiDemo.length ∧ 0 ≤ rect4.width ∧
        0 ≤ rect4.height ∧ BoundedRoi roiDemo ∧ BoundedRect rect4) ∧
      (collision_detect roiDemo rect4 = true ↔
        specSeparates roiDemo rect4 = false) :=
  ⟨⟨by unfold ConvexWound ConvexCCW ConvexCW; decide, by decide, by decide,
      by decide, by unfold BoundedRoi; decide, by unfold BoundedRect; decide⟩,
    collision_iff_no_separating_axis roiDemo rect4
      (by unfold ConvexWound ConvexCCW ConvexCW; decide) (by decide)
      (by decide) (by decide) (by unfold BoundedRoi; decide)
      (by unfold BoundedRect; decide)⟩

/-! ### Bounds safety of the container accesses (C10) -/

theorem get?_of_lt {α : Type} (l : List α) (d : α) :
    ∀ i, i < l.length → l.get? i = some (l.getD i d) := by
  induction l with
  | nil => intro i h; exact absurd h (Nat.not_lt_zero i)
  | cons h t ih =>
    intro i hi
    cases i with
    | zero => rfl
    | succ j => exact ih j (Nat.lt_of_succ_lt_succ hi)

theorem optionMapM_eq_map (f : Nat → Option Bool) (g : Nat → Bool) :
    ∀ l : List Nat, (∀ x ∈ l, f x = some (g x)) →
      optionMapM f l = some (l.map g) := by
  intro l
  induction l with
  | nil => intro _; rfl
  | cons i is ih =>
    intro hl
    rw [optionMapM, hl i (List.mem_cons_self i is),
      ih (fun x hx => hl x (List.mem_cons_of_mem i hx))]
    rfl

theorem any_map_id (f : Nat → Bool) :
    ∀ l : List Nat, (l.map f).any id = l.any f := by
  intro l
  induction l with
  | nil => rfl
  | cons h t ih => simp only [List.map_cons, List.any_cons, ih, id_eq]

theorem separatesAtChecked_eq (roi : List Point) (rect : Rect)
    (h3 : 3 ≤ roi.length) (i : Nat) :
    separatesAtChecked roi (rect_to_points rect) i =
      some (separatesAt roi (rect_to_points rect) i) := by
  by_cases hi : i < roi.length
  · have hmod : (i + 1) % roi.length < roi.length :=
      Nat.mod_lt _ (by omega)
    unfold separatesAtChecked separatesAt axisAt
    simp only [hi, if_true]
    rw [get?_of_lt roi Point.zero i hi, get?_of_lt roi Point.zero _ hmod]
    rfl
  · unfold separatesAtChecked separatesAt axisAt
    simp only [hi, if_false]
    have h2 : (roi.length + 2) - roi.length = 2 := by omega
    rw [h2]
    rfl

/-- Claim C10: for every ROI with at least 3 points, the bounds-checked
variant of `collision_detect` performs no out-of-range container access:
it returns `some` of the value `collision_detect` returns. -/
theorem collision_detect_checked_eq (roi : List Point) (rect : Rect)
    (h3 : 3 ≤ roi.length) :
    collision_detect_checked roi rect = some (collision_detect roi rect) := by
  have h3' : ¬ roi.length < 3 := not_lt.mpr h3
  unfold collision_detect_checked collision_detect
  simp only [h3', if_false]
  rcases Bool.eq_false_or_eq_true (prefilterReject roi rect) with hp | hp
  · simp [hp]
  · simp only [hp, Bool.false_eq_true, if_false]
    rw [optionMapM_eq_map (separatesAtChecked roi (rect_to_points rect))
      (fun i => separatesAt roi (rect_to_points rect) i) _
      (fun x _ => separatesAtChecked_eq roi rect h3 x)]
    unfold satLoop
    simp only [Option.map_some']
    rw [any_map_id]

/-- Witness for C10 at the demonstration triangle and `rect1`. -/
theorem collision_detect_checked_eq_witness :
    (3 ≤ roiDemo.length) ∧
      collision_detect_checked roiDemo rect1 =
        some (collision_detect roiDemo rect1) :=
  ⟨by decide, collision_detect_checked_eq roiDemo rect1 (by decide)⟩

end CollisionDetect
